import Mathlib

/-!
# Verification of the `observed-remove-level` Observed-Remove Map

Shallow embedding of the persistent (LevelDB-backed) Observed-Remove Map CRDT
of `wehriam/observed-remove-level` (`src/map.js`, here `src/unnamed/part_003`,
and the compiled `dist/signed-map.js`, here `src/unnamed/part_002`).

## The store model

The implementation keeps all of its state in one ordered string-keyed store
(`level`), using four disjoint key ranges under a namespace `N`:

* live pairs  : `N` `>` `key` ↦ `[id, value]`
* tombstones  : `N` `<` `id`  ↦ `key`
* ins-sig     : `N` `[` `id`  ↦ `signature`
* del-sig     : `N` `]` `id`  ↦ `signature`

Since the separator characters `<`, `>`, `[`, `]` differ at the fixed position
`|N|`, the four ranges can never collide, and every store operation in the
source addresses exactly one range.  We therefore embed the store as four
separate ordered association lists (sorted by key, as levelDB keys are), one
per range; `db.put`/`db.get`/`db.del` become ordered-insert / lookup / remove
on the corresponding list.  The range deletion
`db.clear { gt: N<, lt: N<maxAgeString }` used by `flush` removes exactly the
tombstone entries whose id `i` satisfies `"" < i ∧ i < maxAgeString` in
lexicographic string order (keys strictly between `N<` and `N<m` are exactly
the keys `N<i` with `"" < i < m`), which is how it is embedded below.

Values are kept abstract in a type parameter `V`, exactly like the Flow
generic `ObservedRemoveMap<V>`; for claims about JavaScript truthiness a
concrete `JSVal` type is used.
-/

/-- An ordered association list: the model of one key range of the level
store.  Keys are strings, kept in strictly increasing lexicographic order. -/
abbrev KV (α : Type) := List (String × α)

/-- Computable lexicographic comparison of character lists. -/
def listLtb : List Char → List Char → Bool
  | [], [] => false
  | [], _ :: _ => true
  | _ :: _, [] => false
  | a :: as, b :: bs =>
    if a < b then true else if b < a then false else listLtb as bs

/-- Computable lexicographic string comparison: the JavaScript `<` operator
on strings (comparison by code unit), used by `_process` to compare ids and
by the ordered store to order its keys. -/
def strLtb (a b : String) : Bool := listLtb a.data b.data

theorem listLtb_iff : ∀ l m : List Char, listLtb l m = true ↔ List.lt l m := by
  intro l
  induction l with
  | nil =>
    intro m
    cases m with
    | nil =>
      simp [listLtb]
      intro h
      cases h
    | cons b bs =>
      simp [listLtb]
      exact List.lt.nil b bs
  | cons a as ih =>
    intro m
    cases m with
    | nil =>
      simp [listLtb]
      intro h
      cases h
    | cons b bs =>
      by_cases hab : a < b
      · simp [listLtb, hab]
        exact List.lt.head as bs hab
      · by_cases hba : b < a
        · simp [listLtb, hab, hba]
          intro h
          cases h with
          | head _ _ h' => exact hab h'
          | tail h1 h2 h3 => exact h2 hba
        · simp [listLtb, hab, hba, ih bs]
          constructor
          · intro h
            exact List.lt.tail hab hba h
          · intro h
            cases h with
            | head _ _ h' => exact absurd h' hab
            | tail h1 h2 h3 => exact h3

/-- `strLtb` agrees with the (noncomputable-in-the-kernel) linear order on
`String`. -/
theorem strLtb_iff (a b : String) : strLtb a b = true ↔ a < b := by
  rw [strLtb, listLtb_iff, String.lt_iff_toList_lt]
  exact List.lt_iff_lex_lt a.data b.data

theorem strLtb_of_lt {a b : String} (h : a < b) : strLtb a b = true :=
  (strLtb_iff a b).mpr h

theorem strLtb_of_not_lt {a b : String} (h : ¬a < b) : strLtb a b = false := by
  cases hb : strLtb a b
  · rfl
  · exact absurd ((strLtb_iff a b).mp hb) h

theorem strLtb_self (a : String) : strLtb a a = false :=
  strLtb_of_not_lt (lt_irrefl a)

/-- `db.get`: lookup of the value stored under a key (the `notFound` error of
levelDB is the `none` case). -/
def alGet (k : String) : KV α → Option α
  | [] => none
  | (k', v) :: t => if k = k' then some v else alGet k t

/-- `db.put`: ordered insert, replacing the value if the key is present. -/
def alPut (k : String) (v : α) : KV α → KV α
  | [] => [(k, v)]
  | (k', v') :: t =>
    if k = k' then (k, v) :: t
    else if strLtb k k' then (k, v) :: (k', v') :: t
    else (k', v') :: alPut k v t

/-- `db.del`: remove the entry stored under a key (no-op when absent). -/
def alDel (k : String) : KV α → KV α
  | [] => []
  | (k', v') :: t => if k = k' then t else (k', v') :: alDel k t

/-- Strict sortedness of an association list by its keys: the invariant of
every range of the ordered store (levelDB keys are pairwise distinct and
iterated in lexicographic order). -/
def alSorted (l : KV α) : Prop := List.Pairwise (fun a b => a.1 < b.1) l

/-- An insertion record `[key, [id, value]]` of the wire format. -/
abbrev Ins (V : Type) := String × String × V

/-- A deletion record `[id, key]` of the wire format. -/
abbrev Del := String × String

/-- A `[insertions, deletions]` batch as handed to `process`. -/
abbrev Batch (V : Type) := List (Ins V) × List Del

/-- The semantic events emitted by `_process` (`set`, `affirm`, `delete`).
The third argument of `set` is the previous value (`undefined` when the key
was absent, modelled by `none`). -/
inductive MapEvent (V : Type) where
  | set (key : String) (value : V) (previous : Option V)
  | affirm (key : String) (value : V) (previous : V)
  | del (key : String) (value : V)
  deriving DecidableEq

/-- The state of one `ObservedRemoveMap` replica: the live-pair range
(`key ↦ (id, value)`), the tombstone range (`id ↦ key`) and the incrementally
maintained `size` counter (a JavaScript number, embedded as `Int`). -/
structure MapState (V : Type) where
  pairs : KV (String × V)
  tombstones : KV String
  size : Int
  deriving DecidableEq

/-- The empty replica state of a fresh map. -/
def MapState.empty : MapState V := ⟨[], [], 0⟩

/-- Phase 1 of `_process`: `for (const [id, key] of deletions)
{ await this.db.put(N<id, key); }` — every deletion is recorded as a
tombstone, unconditionally. -/
def applyDeletionsTomb : List Del → KV String → KV String
  | [], t => t
  | (i, k) :: rest, t => applyDeletionsTomb rest (alPut i k t)

/-- Phase 2 of `_process`: the insertion loop.  For each `[key, [id, value]]`:
skip if a tombstone for `id` exists; otherwise install the pair when the key
is absent (emitting `set`, incrementing `size`) or when the stored id is
smaller (emitting `set`); emit `affirm` when the stored id is equal; do
nothing when the stored id is larger.  The tombstone table `t` is fixed here
because the loop only reads the `<` range. -/
def applyInsertions (t : KV String) :
    List (Ins V) → KV (String × V) → Int → KV (String × V) × Int × List (MapEvent V)
  | [], ps, sz => (ps, sz, [])
  | (k, i, v) :: rest, ps, sz =>
    if (alGet i t).isSome then
      applyInsertions t rest ps sz
    else
      match alGet k ps with
      | some (j, w) =>
        if strLtb j i then
          let r := applyInsertions t rest (alPut k (i, v) ps) sz
          (r.1, r.2.1, .set k v (some w) :: r.2.2)
        else if j = i then
          let r := applyInsertions t rest ps sz
          (r.1, r.2.1, .affirm k v w :: r.2.2)
        else
          applyInsertions t rest ps sz
      | none =>
        let r := applyInsertions t rest (alPut k (i, v) ps) (sz + 1)
        (r.1, r.2.1, .set k v none :: r.2.2)

/-- Phase 3 of `_process`: the second deletion loop.  For each `[id, key]`,
if the live pair for `key` carries exactly this `id`, remove it, decrement
`size` and emit `delete`. -/
def applyDeletionsPairs :
    List Del → KV (String × V) → Int → KV (String × V) × Int × List (MapEvent V)
  | [], ps, sz => (ps, sz, [])
  | (i, k) :: rest, ps, sz =>
    match alGet k ps with
    | some (j, w) =>
      if j = i then
        let r := applyDeletionsPairs rest (alDel k ps) (sz - 1)
        (r.1, r.2.1, .del k w :: r.2.2)
      else
        applyDeletionsPairs rest ps sz
    | none => applyDeletionsPairs rest ps sz

/-- The base-36 digit characters used by JavaScript `Number.toString(36)`:
`0`–`9` then `a`–`z`. -/
def c36 (d : Nat) : Char :=
  if d < 10 then Char.ofNat (48 + d) else Char.ofNat (87 + d)

/-- The `n`-digit base-36 representation of a number, most significant digit
first: `digits36 9 x` models `(x).toString(36).padStart(9, '0')` for
`x < 36 ^ 9` (current epoch milliseconds are far below `36 ^ 9`). -/
def digits36 : Nat → Nat → List Char
  | 0, _ => []
  | n + 1, x => c36 (x / 36 ^ n) :: digits36 n (x % 36 ^ n)

/-- `pad9 x` is the 9-character zero-padded base-36 string
`(x).toString(36).padStart(9, '0')` computed by `flush`. -/
def pad9 (x : Nat) : String := ⟨digits36 9 x⟩

/-- `flush` on the tombstone range:
`db.clear({ gt: N<, lt: N<maxAgeString })` removes every tombstone whose id
is lexicographically strictly between `""` and
`maxAgeString = pad9 (now − maxAge)`. -/
def flushT (now maxAge : Nat) : KV String → KV String :=
  List.filter (fun e => !(strLtb "" e.1 && strLtb e.1 (pad9 (now - maxAge))))

/-- `flush()` of the map (`part_003` lines 108–111): a range delete over the
tombstone prefix; the live-pair range is not touched. -/
def flushMap (now maxAge : Nat) (s : MapState V) : MapState V :=
  ⟨s.pairs, flushT now maxAge s.tombstones, s.size⟩

/-- `_process(queue, skipFlush)` (`part_003` lines 200–248): record all
deletions as tombstones, apply the insertions, apply the deletions to the
live pairs, then flush unless `skipFlush`.  `now` is `Date.now()` at the
time of the final flush.  Returns the new state together with the emitted
events, in emission order. -/
def procBatch (s : MapState V) (q : Batch V) (skipFlush : Bool)
    (now maxAge : Nat) : MapState V × List (MapEvent V) :=
  let t1 := applyDeletionsTomb q.2 s.tombstones
  let r2 := applyInsertions t1 q.1 s.pairs s.size
  let r3 := applyDeletionsPairs q.2 r2.1 r2.2.1
  (⟨r3.1, if skipFlush then t1 else flushT now maxAge t1, r3.2.1⟩,
   r2.2.2 ++ r3.2.2)

/-- `updateSize()` (`part_003` lines 57–86): count the entries of the
live-pair range and store the count in `size`. -/
def updateSize (s : MapState V) : MapState V :=
  ⟨s.pairs, s.tombstones, (s.pairs.length : Int)⟩

/-- Processing a sequence of batches (each with `skipFlush = true`; flushing
is covered separately, see `flushMap`). -/
def procBatches (s : MapState V) : List (Batch V) → MapState V
  | [] => s
  | b :: rest => procBatches (procBatch s b true 0 0).1 rest

/-! ## Basic facts about the store model -/

theorem alGet_alPut_self (k : String) (v : α) (l : KV α) :
    alGet k (alPut k v l) = some v := by
  induction l with
  | nil => simp [alPut, alGet]
  | cons h t ih =>
    obtain ⟨k', v'⟩ := h
    by_cases hk : k = k'
    · simp [alPut, hk, alGet]
    · by_cases hlt : k < k'
      · simp [alPut, hk, strLtb_of_lt hlt, alGet]
      · simp [alPut, hk, strLtb_of_not_lt hlt, alGet, ih]

theorem alGet_alPut_other (hne : k₀ ≠ k) (v : α) (l : KV α) :
    alGet k₀ (alPut k v l) = alGet k₀ l := by
  induction l with
  | nil => simp [alPut, alGet, hne]
  | cons h t ih =>
    obtain ⟨k', v'⟩ := h
    by_cases hk : k = k'
    · subst hk
      simp [alPut, alGet, hne]
    · by_cases hlt : k < k'
      · simp [alPut, hk, strLtb_of_lt hlt, alGet, hne]
      · simp [alPut, hk, strLtb_of_not_lt hlt, alGet, ih]

theorem alGet_alDel_other (hne : k₀ ≠ k) (l : KV α) :
    alGet k₀ (alDel k l) = alGet k₀ l := by
  induction l with
  | nil => simp [alDel]
  | cons h t ih =>
    obtain ⟨k', v'⟩ := h
    by_cases hk : k = k'
    · subst hk
      simp [alDel, alGet, hne, ih]
    · simp [alDel, hk, alGet, ih]

theorem alGet_eq_some_mem {l : KV α} (h : alGet k l = some v) : (k, v) ∈ l := by
  induction l with
  | nil => simp [alGet] at h
  | cons e t ih =>
    obtain ⟨k', v'⟩ := e
    by_cases hk : k = k'
    · subst hk
      simp [alGet] at h
      simp [h]
    · simp [alGet, hk] at h
      exact List.mem_cons_of_mem _ (ih h)

theorem alGet_eq_none_of_forall {l : KV α} (h : ∀ e ∈ l, e.1 ≠ k) :
    alGet k l = none := by
  induction l with
  | nil => rfl
  | cons e t ih =>
    have hk : k ≠ e.1 := fun he => (h e (by simp)) he.symm
    obtain ⟨k', v'⟩ := e
    simp only [alGet, if_neg hk]
    exact ih fun x hx => h x (List.mem_cons_of_mem _ hx)

theorem mem_alPut {l : KV α} (h : e ∈ alPut k v l) : e = (k, v) ∨ e ∈ l := by
  induction l with
  | nil => simp [alPut] at h; simp [h]
  | cons e' t ih =>
    obtain ⟨k', v'⟩ := e'
    by_cases hk : k = k'
    · simp [alPut, hk] at h
      rcases h with h | h
      · exact Or.inl (by simp [h, hk])
      · exact Or.inr (by simp [h])
    · by_cases hlt : k < k'
      · simp [alPut, hk, strLtb_of_lt hlt] at h
        rcases h with h | h | h
        · exact Or.inl (by simp [h])
        · exact Or.inr (by simp [h])
        · exact Or.inr (by simp [h])
      · rw [alPut, if_neg hk] at h
        rw [strLtb_of_not_lt hlt] at h
        simp only [Bool.false_eq_true, if_false, List.mem_cons] at h
        rcases h with h | h
        · exact Or.inr (by simp [h])
        · rcases ih h with h | h
          · exact Or.inl h
          · exact Or.inr (List.mem_cons_of_mem _ h)

theorem alSorted_alPut {l : KV α} (h : alSorted l) : alSorted (alPut k v l) := by
  induction l with
  | nil => simp [alPut, alSorted]
  | cons e t ih =>
    obtain ⟨k', v'⟩ := e
    rw [alSorted, List.pairwise_cons] at h
    obtain ⟨hhead, ht⟩ := h
    by_cases hk : k = k'
    · subst hk
      simp only [alPut, if_pos rfl]
      exact List.Pairwise.cons (fun e he => hhead e he) ht
    · by_cases hlt : k < k'
      · simp only [alPut, if_neg hk, strLtb_of_lt hlt, if_true]
        refine List.Pairwise.cons ?_ (List.Pairwise.cons hhead ht)
        intro e he
        rcases List.mem_cons.mp he with he | he
        · simp [he, hlt]
        · exact lt_trans hlt (hhead e he)
      · have hk' : k' < k := by
          rcases lt_trichotomy k k' with h | h | h
          · exact absurd h hlt
          · exact absurd h hk
          · exact h
        simp only [alPut, if_neg hk, strLtb_of_not_lt hlt, Bool.false_eq_true,
          if_false]
        refine List.Pairwise.cons ?_ (ih ht)
        intro e he
        rcases mem_alPut he with he | he
        · simp [he, hk']
        · exact hhead e he

theorem alDel_sublist (k : String) (l : KV α) : (alDel k l).Sublist l := by
  induction l with
  | nil => simp [alDel]
  | cons e t ih =>
    obtain ⟨k', v'⟩ := e
    by_cases hk : k = k'
    · simp [alDel, hk]
    · simp only [alDel, if_neg hk]
      exact List.Sublist.cons₂ _ ih

theorem alSorted_alDel {l : KV α} (h : alSorted l) : alSorted (alDel k l) :=
  List.Pairwise.sublist (alDel_sublist k l) h

theorem alSorted_filter {l : KV α} (p : String × α → Bool) (h : alSorted l) :
    alSorted (l.filter p) :=
  List.Pairwise.sublist (List.filter_sublist l) h

theorem alGet_alDel_self {l : KV α} (h : alSorted l) :
    alGet k (alDel k l) = none := by
  induction l with
  | nil => rfl
  | cons e t ih =>
    obtain ⟨k', v'⟩ := e
    rw [alSorted, List.pairwise_cons] at h
    obtain ⟨hhead, ht⟩ := h
    by_cases hk : k = k'
    · subst hk
      simp only [alDel, if_pos rfl]
      exact alGet_eq_none_of_forall fun e he => ne_of_gt (hhead e he)
    · simp only [alDel, if_neg hk, alGet, if_neg hk]
      exact ih ht

/-- Putting back the value already stored under a key leaves the list
unchanged. -/
theorem alPut_id {l : KV α} (hs : alSorted l) (h : alGet k l = some v) :
    alPut k v l = l := by
  induction l with
  | nil => simp [alGet] at h
  | cons e t ih =>
    obtain ⟨k', v'⟩ := e
    rw [alSorted, List.pairwise_cons] at hs
    obtain ⟨hhead, ht⟩ := hs
    by_cases hk : k = k'
    · subst hk
      simp [alGet] at h
      simp [alPut, h]
    · simp [alGet, hk] at h
      have hk'k : k' < k := hhead _ (alGet_eq_some_mem h)
      simp [alPut, hk, strLtb_of_not_lt (not_lt_of_gt hk'k), ih ht h]

/-- Two sorted association lists with the same lookups are equal: the ordered
store is determined by its contents. -/
theorem alExt {l₁ l₂ : KV α} (h₁ : alSorted l₁) (h₂ : alSorted l₂)
    (h : ∀ k, alGet k l₁ = alGet k l₂) : l₁ = l₂ := by
  induction l₁ generalizing l₂ with
  | nil =>
    cases l₂ with
    | nil => rfl
    | cons e t =>
      obtain ⟨k', v'⟩ := e
      have := h k'
      simp [alGet] at this
  | cons e t ih =>
    obtain ⟨k₁, v₁⟩ := e
    cases l₂ with
    | nil =>
      have := h k₁
      simp [alGet] at this
    | cons e₂ t₂ =>
      obtain ⟨k₂, v₂⟩ := e₂
      rw [alSorted, List.pairwise_cons] at h₁ h₂
      obtain ⟨hh₁, ht₁⟩ := h₁
      obtain ⟨hh₂, ht₂⟩ := h₂
      have hks : k₁ = k₂ := by
        by_contra hne
        have ha : alGet k₁ ((k₂, v₂) :: t₂) = some v₁ := by
          rw [← h k₁]; simp [alGet]
        simp only [alGet, if_neg hne] at ha
        have hmem₁ := alGet_eq_some_mem ha
        have hk₂₁ : k₂ < k₁ := hh₂ _ hmem₁
        have hb : alGet k₂ ((k₁, v₁) :: t) = some v₂ := by
          rw [h k₂]; simp [alGet]
        simp only [alGet, if_neg (Ne.symm hne)] at hb
        have hmem₂ := alGet_eq_some_mem hb
        have hk₁₂ : k₁ < k₂ := hh₁ _ hmem₂
        exact absurd hk₁₂ (not_lt_of_gt hk₂₁)
      subst hks
      have hvs : v₁ = v₂ := by
        have := h k₁
        simp [alGet] at this
        exact this
      subst hvs
      have htails : ∀ k, alGet k t = alGet k t₂ := by
        intro k
        by_cases hk : k = k₁
        · subst hk
          rw [alGet_eq_none_of_forall fun e he => ne_of_gt (hh₁ e he),
            alGet_eq_none_of_forall fun e he => ne_of_gt (hh₂ e he)]
        · have := h k
          simpa [alGet, hk] using this
      rw [ih ht₁ ht₂ htails]

/-- Lookup after filtering on a key predicate. -/
theorem alGet_filter (p : String → Bool) (l : KV α) :
    alGet k (l.filter fun e => p e.1) = if p k then alGet k l else none := by
  induction l with
  | nil => simp [alGet]
  | cons e t ih =>
    obtain ⟨k', v'⟩ := e
    by_cases hk : k = k'
    · subst hk
      by_cases hp : p k
      · simp [List.filter, hp, alGet]
      · simp [List.filter, hp, alGet, ih]
    · by_cases hp : p k'
      · simp [List.filter, hp, alGet, hk, ih]
      · simp [List.filter, hp, alGet, hk, ih]

theorem alGet_flushT (now maxAge : Nat) (t : KV String) :
    alGet i (flushT now maxAge t)
      = if "" < i ∧ i < pad9 (now - maxAge) then none else alGet i t := by
  have h := alGet_filter (k := i)
    (fun x => !(strLtb "" x && strLtb x (pad9 (now - maxAge)))) t
  rw [flushT, h]
  by_cases hc : "" < i ∧ i < pad9 (now - maxAge)
  · rw [if_pos hc, strLtb_of_lt hc.1, strLtb_of_lt hc.2]
    simp
  · rw [if_neg hc]
    have hb : (strLtb "" i && strLtb i (pad9 (now - maxAge))) = false := by
      cases h1 : strLtb "" i
      · simp
      · cases h2 : strLtb i (pad9 (now - maxAge))
        · simp
        · exact absurd ⟨(strLtb_iff _ _).mp h1, (strLtb_iff _ _).mp h2⟩ hc
    rw [hb]
    simp

/-! ## JavaScript values and the read accessors (`get`, `has`) -/

/-- A JavaScript runtime value, as far as truthiness is concerned.  `obj`
stands for any non-primitive value (always truthy); `NaN` is not
representable here, which only makes truthiness of numbers total. -/
inductive JSVal where
  | undef
  | null
  | bool (b : Bool)
  | num (n : Int)
  | str (s : String)
  | obj
  deriving DecidableEq

/-- JavaScript truthiness: `undefined`, `null`, `false`, `0` and `""` are
falsy, everything else is truthy. -/
def JSVal.truthy : JSVal → Bool
  | .undef => false
  | .null => false
  | .bool b => b
  | .num n => n != 0
  | .str s => s != ""
  | .obj => true

/-- `!!x` applied to the result of `get` (`undefined` when absent). -/
def jsTruthy : Option JSVal → Bool
  | none => false
  | some v => v.truthy

/-- `get(key)` (`part_003` lines 280–290): the value component of the live
pair, `undefined` (`none`) when absent or on `notFound`. -/
def mapGet (s : MapState V) (k : String) : Option V :=
  (alGet k s.pairs).map Prod.snd

/-- `has(key)` (`part_003` lines 325–327): literally
`!!(await this.get(key))` — JavaScript truthiness of the stored value. -/
def mapHas (s : MapState JSVal) (k : String) : Bool :=
  jsTruthy (mapGet s k)

/-! ## Unfolding lemmas for singleton batches -/

theorem applyDeletionsTomb_single (j k2 : String) (t : KV String) :
    applyDeletionsTomb [(j, k2)] t = alPut j k2 t := by
  simp [applyDeletionsTomb]

theorem applyInsertions_single (t : KV String) (k i : String) (v : V)
    (ps : KV (String × V)) (sz : Int) :
    applyInsertions t [(k, i, v)] ps sz =
      if (alGet i t).isSome then (ps, sz, [])
      else
        match alGet k ps with
        | some (j, w) =>
          if j < i then (alPut k (i, v) ps, sz, [.set k v (some w)])
          else if j = i then (ps, sz, [.affirm k v w])
          else (ps, sz, [])
        | none => (alPut k (i, v) ps, sz + 1, [.set k v none]) := by
  by_cases h : (alGet i t).isSome
  · simp [applyInsertions, h]
  · cases h2 : alGet k ps with
    | none => simp [applyInsertions, h, h2]
    | some p =>
      obtain ⟨j, w⟩ := p
      by_cases hji : j < i
      · simp [applyInsertions, h, h2, strLtb_of_lt hji, hji]
      · by_cases hje : j = i
        · simp [applyInsertions, h, h2, strLtb_of_not_lt hji, strLtb_self,
            hji, hje]
        · simp [applyInsertions, h, h2, strLtb_of_not_lt hji, hji, hje]

theorem applyDeletionsPairs_single (j k2 : String)
    (ps : KV (String × V)) (sz : Int) :
    applyDeletionsPairs [(j, k2)] ps sz =
      match alGet k2 ps with
      | some (j', w) =>
        if j' = j then (alDel k2 ps, sz - 1, [.del k2 w]) else (ps, sz, [])
      | none => (ps, sz, []) := by
  cases h2 : alGet k2 ps with
  | none => simp [applyDeletionsPairs, h2]
  | some p =>
    obtain ⟨j', w⟩ := p
    by_cases hj : j' = j
    · simp [applyDeletionsPairs, h2, hj]
    · simp [applyDeletionsPairs, h2, hj]

/-! ## C1: the semantics of one `process` batch -/

/-- **C1** — For a batch `[[key, [id, value]]], [[jd, k2]]]` applied by
`process`: the deletion is recorded as a tombstone `jd ↦ k2` first, even when
no live pair references it, and other tombstones are untouched; the insertion
is skipped (no live-pair change outside the deleted key, no `set`/`affirm`
events) when a tombstone for `id` exists; it is installed with a `set` event
exactly when the key is absent or holds a smaller id; an equal id emits
`affirm`; a larger id leaves the pair in place; and a deletion `[jd, k2]`
removes the live pair for `k2` exactly when that pair carries `jd`, emitting
`delete(k2, value)`, and otherwise changes nothing and emits nothing. -/
theorem c1_process_batch_semantics (s : MapState V) (hs : alSorted s.pairs)
    (k i : String) (v : V) (j k2 : String) :
    (alGet j (procBatch s ([(k, i, v)], [(j, k2)]) true 0 0).1.tombstones
        = some k2) ∧
    (∀ i', i' ≠ j →
      alGet i' (procBatch s ([(k, i, v)], [(j, k2)]) true 0 0).1.tombstones
        = alGet i' s.tombstones) ∧
    ((i = j ∨ (alGet i s.tombstones).isSome = true) →
      (∀ key, key ≠ k2 →
        alGet key (procBatch s ([(k, i, v)], [(j, k2)]) true 0 0).1.pairs
          = alGet key s.pairs) ∧
      (∀ key val prev,
        MapEvent.set key val prev
          ∉ (procBatch s ([(k, i, v)], [(j, k2)]) true 0 0).2) ∧
      (∀ key val prev,
        MapEvent.affirm key val prev
          ∉ (procBatch s ([(k, i, v)], [(j, k2)]) true 0 0).2)) ∧
    (i ≠ j → alGet i s.tombstones = none → alGet k s.pairs = none →
      alGet k (procBatch s ([(k, i, v)], [(j, k2)]) true 0 0).1.pairs
          = some (i, v) ∧
      MapEvent.set k v none ∈ (procBatch s ([(k, i, v)], [(j, k2)]) true 0 0).2) ∧
    (∀ jp w, i ≠ j → alGet i s.tombstones = none →
      alGet k s.pairs = some (jp, w) → jp < i →
      alGet k (procBatch s ([(k, i, v)], [(j, k2)]) true 0 0).1.pairs
          = some (i, v) ∧
      MapEvent.set k v (some w)
          ∈ (procBatch s ([(k, i, v)], [(j, k2)]) true 0 0).2) ∧
    (∀ w, i ≠ j → alGet i s.tombstones = none →
      alGet k s.pairs = some (i, w) →
      alGet k (procBatch s ([(k, i, v)], [(j, k2)]) true 0 0).1.pairs
          = some (i, w) ∧
      MapEvent.affirm k v w ∈ (procBatch s ([(k, i, v)], [(j, k2)]) true 0 0).2) ∧
    (∀ jp w, i ≠ j → alGet i s.tombstones = none →
      alGet k s.pairs = some (jp, w) → i < jp → ¬(k2 = k ∧ j = jp) →
      alGet k (procBatch s ([(k, i, v)], [(j, k2)]) true 0 0).1.pairs
          = some (jp, w) ∧
      (∀ val prev,
        MapEvent.set k val prev
          ∉ (procBatch s ([(k, i, v)], [(j, k2)]) true 0 0).2)) ∧
    (∀ w, alGet k2 s.pairs = some (j, w) →
      alGet k2 (procBatch s ([], [(j, k2)]) true 0 0).1.pairs = none ∧
      MapEvent.del k2 w ∈ (procBatch s ([], [(j, k2)]) true 0 0).2) ∧
    ((∀ w, alGet k2 s.pairs ≠ some (j, w)) →
      (procBatch s ([], [(j, k2)]) true 0 0).1.pairs = s.pairs ∧
      (procBatch s ([], [(j, k2)]) true 0 0).2 = []) := by
  refine ⟨?_, ?_, ?_, ?_, ?_, ?_, ?_, ?_, ?_⟩
  · -- tombstone recorded unconditionally
    simp only [procBatch, applyDeletionsTomb_single]
    exact alGet_alPut_self j k2 s.tombstones
  · -- other tombstones untouched
    intro i' hne
    simp only [procBatch, applyDeletionsTomb_single]
    exact alGet_alPut_other hne k2 s.tombstones
  · -- tombstoned insertion is skipped
    intro hskip
    have htomb : (alGet i (alPut j k2 s.tombstones)).isSome = true := by
      rcases hskip with h | h
      · subst h; rw [alGet_alPut_self]; rfl
      · by_cases hij : i = j
        · subst hij; rw [alGet_alPut_self]; rfl
        · rw [alGet_alPut_other hij]; exact h
    simp only [procBatch, applyDeletionsTomb_single, applyInsertions_single,
      applyDeletionsPairs_single, htomb, if_true]
    cases h2 : alGet k2 s.pairs with
    | none =>
      simp [h2]
    | some p =>
      obtain ⟨j', w⟩ := p
      by_cases hj : j' = j
      · subst hj
        refine ⟨fun key hk => ?_, ?_, ?_⟩
        · simp only [h2, if_pos rfl]
          exact alGet_alDel_other hk s.pairs
        · intro key val prev
          simp [h2]
        · intro key val prev
          simp [h2]
      · simp [h2, hj]
  · -- fresh insertion into an absent key
    intro hij hti hki
    have htomb : alGet i (alPut j k2 s.tombstones) = none := by
      rw [alGet_alPut_other hij]; exact hti
    have hkput : alGet k (alPut k (i, v) s.pairs) = some (i, v) :=
      alGet_alPut_self k (i, v) s.pairs
    simp only [procBatch, applyDeletionsTomb_single, applyInsertions_single,
      applyDeletionsPairs_single, htomb, Option.isSome_none, Bool.false_eq_true,
      if_false, hki]
    by_cases hkk : k2 = k
    · subst hkk
      simp [hkput, fun h : i = j => hij h]
    · cases h2 : alGet k2 (alPut k (i, v) s.pairs) with
      | none => simp [h2, hkput]
      | some p =>
        obtain ⟨j', w⟩ := p
        by_cases hj : j' = j
        · simp [h2, hj, alGet_alDel_other (fun h : k = k2 => hkk h.symm), hkput]
        · simp [h2, hj, hkput]
  · -- replacement of a smaller id, emitting `set`
    intro jp w hij hti hki hlt
    have htomb : alGet i (alPut j k2 s.tombstones) = none := by
      rw [alGet_alPut_other hij]; exact hti
    have hkput : alGet k (alPut k (i, v) s.pairs) = some (i, v) :=
      alGet_alPut_self k (i, v) s.pairs
    simp only [procBatch, applyDeletionsTomb_single, applyInsertions_single,
      applyDeletionsPairs_single, htomb, Option.isSome_none, Bool.false_eq_true,
      if_false, hki, if_pos hlt]
    by_cases hkk : k2 = k
    · subst hkk
      simp [hkput, fun h : i = j => hij h]
    · cases h2 : alGet k2 (alPut k (i, v) s.pairs) with
      | none => simp [h2, hkput]
      | some p =>
        obtain ⟨j', w'⟩ := p
        by_cases hj : j' = j
        · simp [h2, hj, alGet_alDel_other (fun h : k = k2 => hkk h.symm), hkput]
        · simp [h2, hj, hkput]
  · -- idempotent re-receipt, emitting `affirm`
    intro w hij hti hki
    have htomb : alGet i (alPut j k2 s.tombstones) = none := by
      rw [alGet_alPut_other hij]; exact hti
    simp only [procBatch, applyDeletionsTomb_single, applyInsertions_single,
      applyDeletionsPairs_single, htomb, Option.isSome_none, Bool.false_eq_true,
      if_false, hki, if_neg (lt_irrefl i), if_pos rfl]
    by_cases hkk : k2 = k
    · subst hkk
      simp [hki, fun h : i = j => hij h]
    · cases h2 : alGet k2 s.pairs with
      | none => simp [h2, hki]
      | some p =>
        obtain ⟨j', w'⟩ := p
        by_cases hj : j' = j
        · simp [h2, hj, alGet_alDel_other (fun h : k = k2 => hkk h.symm), hki]
        · simp [h2, hj, hki]
  · -- larger live id: insertion has no effect
    intro jp w hij hti hki hlt hnd
    have htomb : alGet i (alPut j k2 s.tombstones) = none := by
      rw [alGet_alPut_other hij]; exact hti
    have hnlt : ¬jp < i := not_lt_of_gt hlt
    have hne : ¬jp = i := fun h => absurd (h ▸ hlt) (lt_irrefl i)
    simp only [procBatch, applyDeletionsTomb_single, applyInsertions_single,
      applyDeletionsPairs_single, htomb, Option.isSome_none, Bool.false_eq_true,
      if_false, hki, if_neg hnlt, if_neg hne]
    by_cases hkk : k2 = k
    · subst hkk
      have hjne : ¬jp = j := fun h => hnd ⟨rfl, h.symm⟩
      simp [hki, hjne]
    · cases h2 : alGet k2 s.pairs with
      | none => simp [h2, hki]
      | some p =>
        obtain ⟨j', w'⟩ := p
        by_cases hj : j' = j
        · simp [h2, hj, alGet_alDel_other (fun h : k = k2 => hkk h.symm), hki]
        · simp [h2, hj, hki]
  · -- matching deletion removes the pair and emits `delete`
    intro w hk2
    simp only [procBatch, applyDeletionsTomb_single, applyInsertions,
      applyDeletionsPairs_single]
    simp [hk2, alGet_alDel_self hs]
  · -- non-matching deletion leaves the pairs untouched and emits nothing
    intro hno
    simp only [procBatch, applyDeletionsTomb_single, applyInsertions,
      applyDeletionsPairs_single]
    cases h2 : alGet k2 s.pairs with
    | none => simp [h2]
    | some p =>
      obtain ⟨j', w'⟩ := p
      have hj : ¬j' = j := fun h => hno w' (h ▸ h2)
      simp [h2, hj]

/-- Witness for `c1_process_batch_semantics` at a concrete replica state. -/
theorem c1_process_batch_semantics_witness :
    alSorted (MapState.empty (V := Nat)).pairs ∧
    alGet "d" (procBatch (MapState.empty (V := Nat))
      ([("k", "a", 5)], [("d", "k2")]) true 0 0).1.tombstones = some "k2" :=
  ⟨List.Pairwise.nil,
    (c1_process_batch_semantics MapState.empty List.Pairwise.nil
      "k" "a" 5 "d" "k2").1⟩

/-! ## C7: the larger id wins regardless of arrival order -/

/-- **C7** — Two insertions for the same key with ids `i1 < i2`, with no
tombstone for `i2` and no live pair for the key at id `≥ i2`: after both are
processed, in either order, the live pair for the key is the one tagged
`i2`. -/
theorem procBatch_ins_skip {s' : MapState V}
    (h : (alGet i s'.tombstones).isSome = true) :
    procBatch s' ([(k, i, v)], []) true 0 0 = (s', []) := by
  simp [procBatch, applyDeletionsTomb, applyDeletionsPairs,
    applyInsertions_single, h]

theorem procBatch_ins_absent {s' : MapState V}
    (h : (alGet i s'.tombstones).isSome = false)
    (h2 : alGet k s'.pairs = none) :
    procBatch s' ([(k, i, v)], []) true 0 0 =
      (⟨alPut k (i, v) s'.pairs, s'.tombstones, s'.size + 1⟩,
        [.set k v none]) := by
  simp [procBatch, applyDeletionsTomb, applyDeletionsPairs,
    applyInsertions_single, h, h2]

theorem procBatch_ins_replace {s' : MapState V}
    (h : (alGet i s'.tombstones).isSome = false)
    (h2 : alGet k s'.pairs = some (j, w)) (hji : j < i) :
    procBatch s' ([(k, i, v)], []) true 0 0 =
      (⟨alPut k (i, v) s'.pairs, s'.tombstones, s'.size⟩,
        [.set k v (some w)]) := by
  simp [procBatch, applyDeletionsTomb, applyDeletionsPairs,
    applyInsertions_single, h, h2, hji]

theorem procBatch_ins_affirm {s' : MapState V}
    (h : (alGet i s'.tombstones).isSome = false)
    (h2 : alGet k s'.pairs = some (i, w)) :
    procBatch s' ([(k, i, v)], []) true 0 0 = (s', [.affirm k v w]) := by
  simp [procBatch, applyDeletionsTomb, applyDeletionsPairs,
    applyInsertions_single, h, h2, lt_irrefl]

theorem procBatch_ins_older {s' : MapState V}
    (h : (alGet i s'.tombstones).isSome = false)
    (h2 : alGet k s'.pairs = some (j, w)) (hij : i < j) :
    procBatch s' ([(k, i, v)], []) true 0 0 = (s', []) := by
  have hji : ¬j < i := not_lt_of_gt hij
  have hne : ¬j = i := fun h => absurd (h ▸ hij) (lt_irrefl i)
  simp [procBatch, applyDeletionsTomb, applyDeletionsPairs,
    applyInsertions_single, h, h2, hji, hne]

theorem c7_larger_id_wins (s : MapState V) (k i1 i2 : String) (v1 v2 : V)
    (h12 : i1 < i2) (htomb : alGet i2 s.tombstones = none)
    (hpair : ∀ j w, alGet k s.pairs = some (j, w) → j < i2) :
    alGet k (procBatch (procBatch s ([(k, i1, v1)], []) true 0 0).1
        ([(k, i2, v2)], []) true 0 0).1.pairs = some (i2, v2) ∧
    alGet k (procBatch (procBatch s ([(k, i2, v2)], []) true 0 0).1
        ([(k, i1, v1)], []) true 0 0).1.pairs = some (i2, v2) := by
  have htomb2 : (alGet i2 s.tombstones).isSome = false := by simp [htomb]
  constructor
  · -- order i1 then i2
    by_cases h : (alGet i1 s.tombstones).isSome
    · rw [procBatch_ins_skip h]
      cases h2 : alGet k s.pairs with
      | none =>
        rw [procBatch_ins_absent htomb2 h2]
        simp [alGet_alPut_self]
      | some p =>
        obtain ⟨j, w⟩ := p
        rw [procBatch_ins_replace htomb2 h2 (hpair j w h2)]
        simp [alGet_alPut_self]
    · have h1f : (alGet i1 s.tombstones).isSome = false := by
        simpa using h
      cases h2 : alGet k s.pairs with
      | none =>
        rw [procBatch_ins_absent h1f h2]
        have h2' : alGet k ((⟨alPut k (i1, v1) s.pairs, s.tombstones,
            s.size + 1⟩ : MapState V)).pairs = some (i1, v1) :=
          alGet_alPut_self k (i1, v1) s.pairs
        have ht' : (alGet i2 ((⟨alPut k (i1, v1) s.pairs, s.tombstones,
            s.size + 1⟩ : MapState V)).tombstones).isSome = false := htomb2
        rw [procBatch_ins_replace ht' h2' h12]
        simp [alGet_alPut_self]
      | some p =>
        obtain ⟨j, w⟩ := p
        have hji2 : j < i2 := hpair j w h2
        by_cases hji : j < i1
        · rw [procBatch_ins_replace h1f h2 hji]
          have h2' : alGet k ((⟨alPut k (i1, v1) s.pairs, s.tombstones,
              s.size⟩ : MapState V)).pairs = some (i1, v1) :=
            alGet_alPut_self k (i1, v1) s.pairs
          have ht' : (alGet i2 ((⟨alPut k (i1, v1) s.pairs, s.tombstones,
              s.size⟩ : MapState V)).tombstones).isSome = false := htomb2
          rw [procBatch_ins_replace ht' h2' h12]
          simp [alGet_alPut_self]
        · by_cases hje : j = i1
          · subst hje
            rw [procBatch_ins_affirm h1f h2]
            rw [procBatch_ins_replace htomb2 h2 hji2]
            simp [alGet_alPut_self]
          · have hij : i1 < j := by
              rcases lt_trichotomy i1 j with h' | h' | h'
              · exact h'
              · exact absurd h'.symm hje
              · exact absurd h' hji
            rw [procBatch_ins_older h1f h2 hij]
            rw [procBatch_ins_replace htomb2 h2 hji2]
            simp [alGet_alPut_self]
  · -- order i2 then i1
    have hfin : ∀ (s' : MapState V), alGet k s'.pairs = some (i2, v2) →
        s'.tombstones = s.tombstones →
        alGet k (procBatch s' ([(k, i1, v1)], []) true 0 0).1.pairs
          = some (i2, v2) := by
      intro s' hp ht
      by_cases h : (alGet i1 s'.tombstones).isSome
      · rw [procBatch_ins_skip h]; exact hp
      · have h1f : (alGet i1 s'.tombstones).isSome = false := by simpa using h
        rw [procBatch_ins_older h1f hp h12]
        exact hp
    cases h2 : alGet k s.pairs with
    | none =>
      rw [procBatch_ins_absent htomb2 h2]
      exact hfin _ (alGet_alPut_self k (i2, v2) s.pairs) rfl
    | some p =>
      obtain ⟨j, w⟩ := p
      rw [procBatch_ins_replace htomb2 h2 (hpair j w h2)]
      exact hfin _ (alGet_alPut_self k (i2, v2) s.pairs) rfl

/-- Witness for `c7_larger_id_wins` on two concrete insertions. -/
theorem c7_larger_id_wins_witness :
    alGet "k" (procBatch (procBatch (MapState.empty (V := Nat))
        ([("k", "a", 1)], []) true 0 0).1 ([("k", "b", 2)], []) true 0 0).1.pairs
      = some ("b", 2) ∧
    alGet "k" (procBatch (procBatch (MapState.empty (V := Nat))
        ([("k", "b", 2)], []) true 0 0).1 ([("k", "a", 1)], []) true 0 0).1.pairs
      = some ("b", 2) :=
  c7_larger_id_wins MapState.empty "k" "a" "b" 1 2
    ((strLtb_iff "a" "b").mp (by decide)) (by decide)
    (fun j w h => by simp [MapState.empty, alGet] at h)

/-! ## C9: `has` computes truthiness, not presence -/

/-- **C9** (code bug) — `has(key)` is implemented as
`!!(await this.get(key))`: it computes JavaScript truthiness of the stored
value rather than presence of the live pair.  After processing the insertion
`("a", ("i0", 0))`, the live pair table contains an entry for `"a"`, yet
`has("a")` resolves to `false` — contradicting the claim (and the class's
own doc comment "Implements all methods and iterators of the native `Map`
object", whose `has` is presence-based). -/
theorem c9_has_truthiness_bug :
    mapHas ((procBatch (MapState.empty (V := JSVal))
        ([("a", "i0", JSVal.num 0)], []) true 0 0).1) "a" = false ∧
    alGet "a" ((procBatch (MapState.empty (V := JSVal))
        ([("a", "i0", JSVal.num 0)], []) true 0 0).1).pairs
      = some ("i0", JSVal.num 0) := by decide

/-! ## Sortedness and length preservation through `_process` -/

theorem alPut_length_absent {l : KV α} (h : alGet k l = none) :
    (alPut k v l).length = l.length + 1 := by
  induction l with
  | nil => simp [alPut]
  | cons e t ih =>
    obtain ⟨k', v'⟩ := e
    by_cases hk : k = k'
    · simp [alGet, hk] at h
    · simp [alGet, hk] at h
      by_cases hlt : k < k'
      · simp [alPut, hk, strLtb_of_lt hlt]
      · simp [alPut, hk, strLtb_of_not_lt hlt, ih h]

theorem alPut_length_present {l : KV α} (hs : alSorted l)
    (h : (alGet k l).isSome = true) : (alPut k v l).length = l.length := by
  induction l with
  | nil => simp [alGet] at h
  | cons e t ih =>
    obtain ⟨k', v'⟩ := e
    rw [alSorted, List.pairwise_cons] at hs
    obtain ⟨hhead, ht⟩ := hs
    by_cases hk : k = k'
    · simp [alPut, hk]
    · simp only [alGet, if_neg hk] at h
      cases h2 : alGet k t with
      | none => rw [h2] at h; simp at h
      | some w =>
        have hk'k : k' < k := hhead _ (alGet_eq_some_mem h2)
        simp [alPut, hk, strLtb_of_not_lt (not_lt_of_gt hk'k), ih ht h]

theorem alDel_length {l : KV α} (h : (alGet k l).isSome = true) :
    l.length = (alDel k l).length + 1 := by
  induction l with
  | nil => simp [alGet] at h
  | cons e t ih =>
    obtain ⟨k', v'⟩ := e
    by_cases hk : k = k'
    · simp [alDel, hk]
    · simp only [alGet, if_neg hk] at h
      simp [alDel, hk, ih h]

theorem applyDeletionsTomb_sorted (dels : List Del) (t : KV String)
    (h : alSorted t) : alSorted (applyDeletionsTomb dels t) := by
  induction dels generalizing t with
  | nil => exact h
  | cons d rest ih =>
    obtain ⟨i, k⟩ := d
    exact ih _ (alSorted_alPut h)

theorem applyInsertions_sorted (t : KV String) (ins : List (Ins V))
    (ps : KV (String × V)) (sz : Int) (h : alSorted ps) :
    alSorted (applyInsertions t ins ps sz).1 := by
  induction ins generalizing ps sz with
  | nil => exact h
  | cons e rest ih =>
    obtain ⟨k, i, v⟩ := e
    by_cases ht : (alGet i t).isSome
    · simp only [applyInsertions, ht, if_true]
      exact ih ps sz h
    · cases h2 : alGet k ps with
      | none =>
        simp only [applyInsertions, ht, Bool.false_eq_true, if_false, h2]
        exact ih _ _ (alSorted_alPut h)
      | some p =>
        obtain ⟨j, w⟩ := p
        by_cases hji : strLtb j i
        · simp only [applyInsertions, ht, Bool.false_eq_true, if_false, h2,
            hji, if_true]
          exact ih _ _ (alSorted_alPut h)
        · rw [Bool.not_eq_true] at hji
          simp only [applyInsertions, ht, Bool.false_eq_true, if_false, h2,
            hji]
          by_cases hje : j = i
          · rw [if_pos hje]
            exact ih _ _ h
          · rw [if_neg hje]
            exact ih _ _ h

theorem applyDeletionsPairs_sorted (dels : List Del)
    (ps : KV (String × V)) (sz : Int) (h : alSorted ps) :
    alSorted (applyDeletionsPairs dels ps sz).1 := by
  induction dels generalizing ps sz with
  | nil => exact h
  | cons d rest ih =>
    obtain ⟨i, k⟩ := d
    cases h2 : alGet k ps with
    | none =>
      simp only [applyDeletionsPairs, h2]
      exact ih ps sz h
    | some p =>
      obtain ⟨j, w⟩ := p
      by_cases hj : j = i
      · simp only [applyDeletionsPairs, h2, hj, if_true]
        exact ih _ _ (alSorted_alDel h)
      · simp only [applyDeletionsPairs, h2, hj]
        exact ih ps sz h

/-- `_process` keeps both store ranges sorted. -/
theorem procBatch_sorted (s : MapState V) (q : Batch V) (sf : Bool)
    (now maxAge : Nat) (hp : alSorted s.pairs) (ht : alSorted s.tombstones) :
    alSorted (procBatch s q sf now maxAge).1.pairs ∧
    alSorted (procBatch s q sf now maxAge).1.tombstones := by
  constructor
  · exact applyDeletionsPairs_sorted _ _ _
      (applyInsertions_sorted _ _ _ _ hp)
  · simp only [procBatch]
    by_cases hsf : sf
    · simp only [hsf, if_true]
      exact applyDeletionsTomb_sorted _ _ ht
    · simp only [hsf, if_false]
      exact alSorted_filter _ (applyDeletionsTomb_sorted _ _ ht)

/-! ## C10: the `size` counter equals the number of live pairs -/

theorem applyInsertions_size (t : KV String) (ins : List (Ins V))
    (ps : KV (String × V)) (sz : Int) (hs : alSorted ps)
    (h : sz = (ps.length : Int)) :
    (applyInsertions t ins ps sz).2.1
      = (((applyInsertions t ins ps sz).1).length : Int) := by
  induction ins generalizing ps sz with
  | nil => exact h
  | cons e rest ih =>
    obtain ⟨k, i, v⟩ := e
    by_cases htm : (alGet i t).isSome
    · simp only [applyInsertions, htm, if_true]
      exact ih ps sz hs h
    · cases h2 : alGet k ps with
      | none =>
        simp only [applyInsertions, htm, Bool.false_eq_true, if_false, h2]
        refine ih _ _ (alSorted_alPut hs) ?_
        rw [alPut_length_absent h2, h]
        push_cast
        ring
      | some p =>
        obtain ⟨j, w⟩ := p
        by_cases hji : strLtb j i
        · simp only [applyInsertions, htm, Bool.false_eq_true, if_false, h2,
            hji, if_true]
          refine ih _ _ (alSorted_alPut hs) ?_
          rw [alPut_length_present hs (by simp [h2]), h]
        · rw [Bool.not_eq_true] at hji
          simp only [applyInsertions, htm, Bool.false_eq_true, if_false, h2,
            hji]
          by_cases hje : j = i
          · rw [if_pos hje]
            exact ih _ _ hs h
          · rw [if_neg hje]
            exact ih _ _ hs h

theorem applyDeletionsPairs_size (dels : List Del)
    (ps : KV (String × V)) (sz : Int) (hs : alSorted ps)
    (h : sz = (ps.length : Int)) :
    (applyDeletionsPairs dels ps sz).2.1
      = (((applyDeletionsPairs dels ps sz).1).length : Int) := by
  induction dels generalizing ps sz with
  | nil => exact h
  | cons d rest ih =>
    obtain ⟨i, k⟩ := d
    cases h2 : alGet k ps with
    | none =>
      simp only [applyDeletionsPairs, h2]
      exact ih ps sz hs h
    | some p =>
      obtain ⟨j, w⟩ := p
      by_cases hj : j = i
      · simp only [applyDeletionsPairs, h2, hj, if_true]
        refine ih _ _ (alSorted_alDel hs) ?_
        have hlen := alDel_length (l := ps) (k := k) (by simp [h2])
        rw [h, hlen]
        push_cast
        ring
      · simp only [applyDeletionsPairs, h2, hj]
        exact ih ps sz hs h

/-- **C10** — the `size` counter always equals the number of live pairs:
`updateSize` establishes the invariant by counting the live-pair range, and
every `_process` application preserves it (`size` is incremented exactly by
the phase-2 install into an absent key, decremented exactly by the phase-3
removal, and untouched by replacements, skips and `flush`). -/
theorem c10_size_invariant (s : MapState V) (q : Batch V) (skipFlush : Bool)
    (now maxAge : Nat) (hs : alSorted s.pairs)
    (h : s.size = (s.pairs.length : Int)) :
    (procBatch s q skipFlush now maxAge).1.size
      = (((procBatch s q skipFlush now maxAge).1.pairs).length : Int) ∧
    (updateSize s).size = (((updateSize s).pairs).length : Int) := by
  constructor
  · simp only [procBatch]
    exact applyDeletionsPairs_size _ _ _
      (applyInsertions_sorted _ _ _ _ hs)
      (applyInsertions_size _ _ _ _ hs h)
  · rfl

/-- Witness for `c10_size_invariant` on a concrete batch. -/
theorem c10_size_invariant_witness :
    alSorted (MapState.empty (V := Nat)).pairs ∧
    (MapState.empty (V := Nat)).size
      = ((MapState.empty (V := Nat)).pairs.length : Int) ∧
    (procBatch (MapState.empty (V := Nat))
        ([("a", "i", 7), ("b", "j", 8)], [("j", "b")]) true 0 0).1.size
      = (((procBatch (MapState.empty (V := Nat))
        ([("a", "i", 7), ("b", "j", 8)], [("j", "b")]) true 0 0).1.pairs).length
          : Int) :=
  ⟨List.Pairwise.nil, rfl,
    (c10_size_invariant MapState.empty ([("a", "i", 7), ("b", "j", 8)],
      [("j", "b")]) true 0 0 List.Pairwise.nil rfl).1⟩

/-! ## C8: `flush` and the age of an id's embedded timestamp

An id produced by `generate-id` is `pad9(base36(timestamp))` followed by
further base-36 characters (the counter and random suffix); `flush` removes
the tombstones whose id is lexicographically below
`pad9(base36(now − maxAge))`.  The lemmas below relate that lexicographic
comparison to the numeric comparison of the embedded timestamps. -/

theorem str_lt_iff_data (a b : String) : a < b ↔ List.lt a.data b.data := by
  rw [String.lt_iff_toList_lt]
  exact (List.lt_iff_lex_lt a.data b.data).symm

theorem digits36_length (n : Nat) : ∀ x, (digits36 n x).length = n := by
  induction n with
  | zero => intro x; rfl
  | succ n ih => intro x; simp [digits36, ih]

/-- The base-36 digit characters are ordered like the digits they encode. -/
theorem c36_lt_iff : ∀ d, d < 36 → ∀ e, e < 36 → (d < e ↔ c36 d < c36 e) := by
  decide

theorem list_lt_append_left : ∀ (A B x : List Char), A.length = B.length →
    List.lt A B → List.lt (A ++ x) B := by
  intro A
  induction A with
  | nil =>
    intro B x hlen h
    cases B with
    | nil => cases h
    | cons b bs => simp at hlen
  | cons a as ih =>
    intro B x hlen h
    cases B with
    | nil => simp at hlen
    | cons b bs =>
      cases h with
      | head _ _ hab => exact List.lt.head _ _ hab
      | tail h1 h2 h3 =>
        exact List.lt.tail h1 h2 (ih bs x (by simpa using hlen) h3)

theorem not_list_lt_append_self : ∀ (A x : List Char), ¬List.lt (A ++ x) A := by
  intro A
  induction A with
  | nil => intro x h; cases h
  | cons a as ih =>
    intro x h
    cases h with
    | head _ _ hab => exact lt_irrefl a hab
    | tail h1 h2 h3 => exact ih x h3

theorem not_list_lt_append_of_gt : ∀ (A B x : List Char), A.length = B.length →
    List.lt B A → ¬List.lt (A ++ x) B := by
  intro A
  induction A with
  | nil =>
    intro B x hlen hBA h
    cases B with
    | nil => cases h
    | cons b bs => simp at hlen
  | cons a as ih =>
    intro B x hlen hBA h
    cases B with
    | nil => cases h
    | cons b bs =>
      cases hBA with
      | head _ _ hba =>
        cases h with
        | head _ _ hab => exact absurd hab (lt_asymm hba)
        | tail h1 h2 h3 => exact h2 hba
      | tail h1 h2 h3 =>
        cases h with
        | head _ _ hab => exact h2 hab
        | tail h1' h2' h3' => exact ih bs x (by simpa using hlen) h3 h3'

/-- Fixed-width base-36 strings compare lexicographically exactly as the
numbers they encode. -/
theorem digits36_lt_iff : ∀ n a b, a < 36 ^ n → b < 36 ^ n →
    (List.lt (digits36 n a) (digits36 n b) ↔ a < b) := by
  intro n
  induction n with
  | zero =>
    intro a b ha hb
    have ha0 : a = 0 := Nat.lt_one_iff.mp ha
    have hb0 : b = 0 := Nat.lt_one_iff.mp hb
    subst ha0; subst hb0
    constructor
    · intro h; cases h
    · intro h; exact absurd h (lt_irrefl 0)
  | succ n ih =>
    intro a b ha hb
    have hpow : (0 : Nat) < 36 ^ n := pow_pos (by norm_num) n
    have hda : a / 36 ^ n < 36 := by
      rw [Nat.div_lt_iff_lt_mul hpow]
      calc a < 36 ^ (n + 1) := ha
        _ = 36 * 36 ^ n := by ring
    have hdb : b / 36 ^ n < 36 := by
      rw [Nat.div_lt_iff_lt_mul hpow]
      calc b < 36 ^ (n + 1) := hb
        _ = 36 * 36 ^ n := by ring
    have hra : a % 36 ^ n < 36 ^ n := Nat.mod_lt _ hpow
    have hrb : b % 36 ^ n < 36 ^ n := Nat.mod_lt _ hpow
    rcases lt_trichotomy (a / 36 ^ n) (b / 36 ^ n) with hq | hq | hq
    · refine iff_of_true (List.lt.head _ _ ((c36_lt_iff _ hda _ hdb).mp hq)) ?_
      exact Nat.lt_of_div_lt_div hq
    · rw [digits36, digits36, hq]
      have heqa : 36 ^ n * (a / 36 ^ n) + a % 36 ^ n = a :=
        Nat.div_add_mod a (36 ^ n)
      have heqb : 36 ^ n * (b / 36 ^ n) + b % 36 ^ n = b :=
        Nat.div_add_mod b (36 ^ n)
      constructor
      · intro h
        cases h with
        | head _ _ hab => exact absurd hab (lt_irrefl _)
        | tail h1 h2 h3 =>
          have hmod := (ih _ _ hra hrb).mp h3
          calc a = 36 ^ n * (a / 36 ^ n) + a % 36 ^ n := heqa.symm
            _ = 36 ^ n * (b / 36 ^ n) + a % 36 ^ n := by rw [hq]
            _ < 36 ^ n * (b / 36 ^ n) + b % 36 ^ n :=
              Nat.add_lt_add_left hmod _
            _ = b := heqb
      · intro h
        have hmod : a % 36 ^ n < b % 36 ^ n := by
          by_contra hc
          push_neg at hc
          have hba : b ≤ a := by
            calc b = 36 ^ n * (b / 36 ^ n) + b % 36 ^ n := heqb.symm
              _ ≤ 36 ^ n * (b / 36 ^ n) + a % 36 ^ n :=
                Nat.add_le_add_left hc _
              _ = 36 ^ n * (a / 36 ^ n) + a % 36 ^ n := by rw [hq]
              _ = a := heqa
          exact absurd h (not_lt_of_ge hba)
        exact List.lt.tail (lt_irrefl _) (lt_irrefl _)
          ((ih _ _ hra hrb).mpr hmod)
    · have hba : b < a := Nat.lt_of_div_lt_div hq
      refine iff_of_false ?_ (Nat.lt_asymm hba)
      intro h
      cases h with
      | head _ _ hab =>
        exact absurd hab (lt_asymm ((c36_lt_iff _ hdb _ hda).mp hq))
      | tail h1 h2 h3 => exact h2 ((c36_lt_iff _ hdb _ hda).mp hq)

/-- An id whose 9-character prefix encodes timestamp `t` compares with the
9-character flush bound exactly as `t` compares with the bound's number. -/
theorem id_lt_pad9_iff (t n0 : Nat) (suffix : List Char)
    (ht : t < 36 ^ 9) (hn : n0 < 36 ^ 9) :
    ((⟨digits36 9 t ++ suffix⟩ : String) < pad9 n0 ↔ t < n0) := by
  rw [pad9, str_lt_iff_data]
  show List.lt (digits36 9 t ++ suffix) (digits36 9 n0) ↔ t < n0
  rcases lt_trichotomy t n0 with h | h | h
  · refine iff_of_true ?_ h
    exact list_lt_append_left _ _ _
      (by rw [digits36_length, digits36_length])
      ((digits36_lt_iff 9 t n0 ht hn).mpr h)
  · subst h
    exact iff_of_false (not_list_lt_append_self _ _) (lt_irrefl t)
  · refine iff_of_false ?_ (Nat.lt_asymm h)
    exact not_list_lt_append_of_gt _ _ _
      (by rw [digits36_length, digits36_length])
      ((digits36_lt_iff 9 n0 t hn ht).mpr h)

theorem empty_lt_id (t : Nat) (suffix : List Char) :
    ("" : String) < ⟨digits36 9 t ++ suffix⟩ := by
  rw [str_lt_iff_data]
  show List.lt [] (digits36 9 t ++ suffix)
  have hlen : (digits36 9 t).length = 9 := digits36_length 9 t
  cases h : digits36 9 t with
  | nil => rw [h] at hlen; simp at hlen
  | cons c rest => exact List.lt.nil _ _

/-- **C8** (amended) — After `flush()`, a tombstone whose id embeds timestamp
`t` has been removed exactly when `now − t > maxAge` strictly (the range
delete's upper bound `N<pad9(now − maxAge)` is exclusive, so the boundary
tombstone with `now − t = maxAge` is retained); every younger tombstone is
retained, and the live pair table (and `size`) are unchanged by `flush`. -/
theorem c8_flush_age_semantics (s : MapState V) (now maxAge t : Nat)
    (suffix : List Char) (hma : maxAge ≤ now) (hb : now - maxAge < 36 ^ 9)
    (ht : t < 36 ^ 9) :
    (flushMap now maxAge s).pairs = s.pairs ∧
    (flushMap now maxAge s).size = s.size ∧
    (alGet ⟨digits36 9 t ++ suffix⟩ (flushMap now maxAge s).tombstones
      = if maxAge + t < now then none
        else alGet ⟨digits36 9 t ++ suffix⟩ s.tombstones) := by
  refine ⟨rfl, rfl, ?_⟩
  show alGet _ (flushT now maxAge s.tombstones) = _
  rw [alGet_flushT]
  by_cases hcond : maxAge + t < now
  · rw [if_pos hcond, if_pos]
    exact ⟨empty_lt_id t suffix,
      (id_lt_pad9_iff t (now - maxAge) suffix ht hb).mpr (by omega)⟩
  · rw [if_neg hcond, if_neg]
    intro hcl
    have := (id_lt_pad9_iff t (now - maxAge) suffix ht hb).mp hcl.2
    omega

/-- Witness for `c8_flush_age_semantics`: a concrete old tombstone is
flushed. -/
theorem c8_flush_age_semantics_witness :
    (40 : Nat) ≤ 100 ∧ 100 - 40 < 36 ^ 9 ∧ 10 < 36 ^ 9 ∧
    alGet ⟨digits36 9 10 ++ ['x']⟩
      (flushMap 100 40 (⟨[], [(⟨digits36 9 10 ++ ['x']⟩, "k")], 0⟩
        : MapState Nat)).tombstones
      = (if 40 + 10 < 100 then none
         else alGet ⟨digits36 9 10 ++ ['x']⟩
          [((⟨digits36 9 10 ++ ['x']⟩ : String), "k")]) :=
  ⟨by norm_num, by norm_num, by norm_num,
    (c8_flush_age_semantics (⟨[], [(⟨digits36 9 10 ++ ['x']⟩, "k")], 0⟩
        : MapState Nat) 100 40 10 ['x'] (by norm_num) (by norm_num)
        (by norm_num)).2.2⟩

/-- **C8** (counterexample to the claim as stated) — at the boundary
`now − t = maxAge` (here `now = 100`, `t = 60`, `maxAge = 40`, so
`now − t ≥ maxAge` holds) the tombstone is still present after `flush`,
whereas the claim asserts it is absent. -/
theorem c8_boundary_counterexample :
    100 - 60 ≥ 40 ∧
    alGet ⟨digits36 9 60 ++ ['x']⟩
      (flushMap 100 40 (⟨[], [(⟨digits36 9 60 ++ ['x']⟩, "k")], 0⟩
        : MapState Nat)).tombstones = some "k" := by decide

/-! ## C3: idempotence of `process` -/

theorem applyDeletionsTomb_lookup_stable (dels : List Del) (t : KV String)
    (i0 k0 : String) (h : alGet i0 t = some k0)
    (hcoh : ∀ p ∈ dels, p.1 = i0 → p.2 = k0) :
    alGet i0 (applyDeletionsTomb dels t) = some k0 := by
  induction dels generalizing t with
  | nil => exact h
  | cons d rest ih =>
    obtain ⟨i, k⟩ := d
    refine ih (alPut i k t) ?_
      fun p hp he => hcoh p (List.mem_cons_of_mem _ hp) he
    by_cases hi : i0 = i
    · subst hi
      rw [alGet_alPut_self]
      exact congrArg some (hcoh (i0, k) (by simp) rfl)
    · rw [alGet_alPut_other hi]
      exact h

theorem applyDeletionsTomb_lookup_mem (dels : List Del) (t : KV String)
    (hfun : ∀ p ∈ dels, ∀ p' ∈ dels, p.1 = p'.1 → p.2 = p'.2) :
    ∀ p ∈ dels, alGet p.1 (applyDeletionsTomb dels t) = some p.2 := by
  induction dels generalizing t with
  | nil => intro p hp; cases hp
  | cons d rest ih =>
    obtain ⟨i, k⟩ := d
    intro p hp
    rcases List.mem_cons.mp hp with hpe | hpm
    · rw [hpe]
      exact applyDeletionsTomb_lookup_stable rest (alPut i k t) i k
        (alGet_alPut_self _ _ _)
        (fun p' hp' he =>
          hfun p' (List.mem_cons_of_mem _ hp') (i, k) (by simp) he)
    · exact ih (alPut i k t)
        (fun a ha b hb he =>
          hfun a (List.mem_cons_of_mem _ ha) b (List.mem_cons_of_mem _ hb) he)
        p hpm

theorem applyDeletionsTomb_id (dels : List Del) (t : KV String)
    (hs : alSorted t) (h : ∀ p ∈ dels, alGet p.1 t = some p.2) :
    applyDeletionsTomb dels t = t := by
  induction dels with
  | nil => rfl
  | cons d rest ih =>
    obtain ⟨i, k⟩ := d
    have hput : alPut i k t = t := alPut_id hs (h (i, k) (by simp))
    simp only [applyDeletionsTomb, hput]
    exact ih fun p hp => h p (List.mem_cons_of_mem _ hp)

theorem applyInsertions_idem (t : KV String) (ins : List (Ins V))
    (ps : KV (String × V)) (sz : Int)
    (hpost : ∀ e ∈ ins, (alGet e.2.1 t).isSome = true ∨
      ∃ j w, alGet e.1 ps = some (j, w) ∧ (e.2.1 = j ∨ e.2.1 < j)) :
    (applyInsertions t ins ps sz).1 = ps ∧
    (applyInsertions t ins ps sz).2.1 = sz ∧
    ∀ ev ∈ (applyInsertions t ins ps sz).2.2,
      ∃ k v w, ev = MapEvent.affirm k v w := by
  induction ins with
  | nil => exact ⟨rfl, rfl, fun ev hev => by cases hev⟩
  | cons e rest ih =>
    obtain ⟨k, i, v⟩ := e
    have hrest := fun e' he' => hpost e' (List.mem_cons_of_mem _ he')
    rcases hpost (k, i, v) (by simp) with htm | ⟨j, w, hjw, hji⟩
    · simp only [applyInsertions, htm, if_true]
      exact ih hrest
    · by_cases htm : (alGet i t).isSome
      · simp only [applyInsertions, htm, if_true]
        exact ih hrest
      · rcases hji with hji | hji
        · subst hji
          simp only [applyInsertions, htm, Bool.false_eq_true, if_false, hjw,
            strLtb_self, Bool.false_eq_true, if_false, if_pos rfl]
          obtain ⟨h1, h2, h3⟩ := ih hrest
          refine ⟨h1, h2, fun ev hev => ?_⟩
          rcases List.mem_cons.mp hev with hev | hev
          · exact ⟨k, v, w, hev⟩
          · exact h3 ev hev
        · have hnlt : strLtb j i = false := strLtb_of_not_lt (not_lt_of_gt hji)
          have hne : ¬j = i := fun h => absurd (h ▸ hji) (lt_irrefl i)
          simp only [applyInsertions, htm, Bool.false_eq_true, if_false, hjw,
            hnlt, Bool.false_eq_true, if_false, if_neg hne]
          exact ih hrest

theorem applyDeletionsPairs_lookup_mono (dels : List Del)
    (ps : KV (String × V)) (sz : Int) (k : String) (hs : alSorted ps) :
    alGet k (applyDeletionsPairs dels ps sz).1 = alGet k ps ∨
    alGet k (applyDeletionsPairs dels ps sz).1 = none := by
  induction dels generalizing ps sz with
  | nil => exact Or.inl rfl
  | cons d rest ih =>
    obtain ⟨i, k0⟩ := d
    cases h2 : alGet k0 ps with
    | none =>
      simp only [applyDeletionsPairs, h2]
      exact ih ps sz hs
    | some p =>
      obtain ⟨j, w⟩ := p
      by_cases hj : j = i
      · simp only [applyDeletionsPairs, h2, hj, if_true]
        rcases ih (alDel k0 ps) (sz - 1) (alSorted_alDel hs) with h | h
        · by_cases hk : k = k0
          · subst hk
            rw [h, alGet_alDel_self hs]
            exact Or.inr rfl
          · rw [h, alGet_alDel_other hk]
            exact Or.inl rfl
        · exact Or.inr h
      · simp only [applyDeletionsPairs, h2, hj]
        exact ih ps sz hs

theorem applyDeletionsPairs_post (dels : List Del)
    (ps : KV (String × V)) (sz : Int) (hs : alSorted ps) :
    ∀ p ∈ dels, ∀ w, alGet p.2 (applyDeletionsPairs dels ps sz).1
      ≠ some (p.1, w) := by
  induction dels generalizing ps sz with
  | nil => intro p hp; cases hp
  | cons d rest ih =>
    obtain ⟨i, k0⟩ := d
    intro p hp w
    obtain ⟨p1, p2⟩ := p
    rcases List.mem_cons.mp hp with hpe | hpm
    · -- `p` is the head deletion: after the head step the pair at `p2` no
      -- longer carries `p1`, and further deletions can only remove pairs
      injection hpe with he1 he2
      subst he1
      subst he2
      cases h2 : alGet p2 ps with
      | none =>
        simp only [applyDeletionsPairs, h2]
        rcases applyDeletionsPairs_lookup_mono rest ps sz p2 hs with h | h
        · rw [h, h2]; exact fun hx => by cases hx
        · rw [h]; exact fun hx => by cases hx
      | some pr =>
        obtain ⟨j, w'⟩ := pr
        by_cases hj : j = p1
        · simp only [applyDeletionsPairs, h2, hj, if_true]
          rcases applyDeletionsPairs_lookup_mono rest (alDel p2 ps) (sz - 1)
            p2 (alSorted_alDel hs) with h | h
          · rw [h, alGet_alDel_self hs]; exact fun hx => by cases hx
          · rw [h]; exact fun hx => by cases hx
        · simp only [applyDeletionsPairs, h2, hj, if_false]
          rcases applyDeletionsPairs_lookup_mono rest ps sz p2 hs with h | h
          · rw [h, h2]
            intro hx
            exact hj (by cases hx; rfl)
          · rw [h]; exact fun hx => by cases hx
    · cases h2 : alGet k0 ps with
      | none =>
        simp only [applyDeletionsPairs, h2]
        exact ih ps sz hs (p1, p2) hpm w
      | some pr =>
        obtain ⟨j, w'⟩ := pr
        by_cases hj : j = i
        · simp only [applyDeletionsPairs, h2, hj, if_true]
          exact ih (alDel k0 ps) (sz - 1) (alSorted_alDel hs) (p1, p2) hpm w
        · simp only [applyDeletionsPairs, h2, hj]
          exact ih ps sz hs (p1, p2) hpm w

theorem applyDeletionsPairs_noop (dels : List Del)
    (ps : KV (String × V)) (sz : Int)
    (h : ∀ p ∈ dels, ∀ w, alGet p.2 ps ≠ some (p.1, w)) :
    applyDeletionsPairs dels ps sz = (ps, sz, []) := by
  induction dels with
  | nil => rfl
  | cons d rest ih =>
    obtain ⟨i, k0⟩ := d
    cases h2 : alGet k0 ps with
    | none =>
      simp only [applyDeletionsPairs, h2]
      exact ih fun p hp => h p (List.mem_cons_of_mem _ hp)
    | some pr =>
      obtain ⟨j, w'⟩ := pr
      have hj : ¬j = i := by
        intro hj
        exact h (i, k0) (by simp) w' (by rw [h2, hj])
      simp only [applyDeletionsPairs, h2, hj]
      exact ih fun p hp => h p (List.mem_cons_of_mem _ hp)

/-- **C3** (amended) — reprocessing a batch is a no-op provided that after
the first processing every insertion of the batch is either tombstoned or
carries an id not larger than the live pair for its key (always the case
unless the batch tombstones an id while carrying a smaller, non-tombstoned
insertion for the same key), and the batch's deletions carry distinct ids:
the second call returns exactly the state of the first and emits at most
`affirm` events, never `set` or `delete`. -/
theorem c3_process_idempotent (s0 : MapState V) (q : Batch V)
    (hsp : alSorted s0.pairs) (hst : alSorted s0.tombstones)
    (hfun : ∀ p ∈ q.2, ∀ p' ∈ q.2, p.1 = p'.1 → p.2 = p'.2)
    (hpost : ∀ e ∈ q.1,
      (alGet e.2.1 (procBatch s0 q true 0 0).1.tombstones).isSome = true ∨
      ∃ j w, alGet e.1 (procBatch s0 q true 0 0).1.pairs = some (j, w) ∧
        (e.2.1 = j ∨ e.2.1 < j)) :
    (procBatch (procBatch s0 q true 0 0).1 q true 0 0).1
      = (procBatch s0 q true 0 0).1 ∧
    ∀ ev ∈ (procBatch (procBatch s0 q true 0 0).1 q true 0 0).2,
      ∃ k v w, ev = MapEvent.affirm k v w := by
  set s1 := (procBatch s0 q true 0 0).1 with hs1def
  have hs1t : s1.tombstones = applyDeletionsTomb q.2 s0.tombstones := rfl
  have hs1p : s1.pairs
      = (applyDeletionsPairs q.2
          (applyInsertions (applyDeletionsTomb q.2 s0.tombstones) q.1
            s0.pairs s0.size).1
          (applyInsertions (applyDeletionsTomb q.2 s0.tombstones) q.1
            s0.pairs s0.size).2.1).1 := rfl
  have hsorted1t : alSorted s1.tombstones :=
    (procBatch_sorted s0 q true 0 0 hsp hst).2
  have hsorted2p : alSorted (applyInsertions
      (applyDeletionsTomb q.2 s0.tombstones) q.1 s0.pairs s0.size).1 :=
    applyInsertions_sorted _ _ _ _ hsp
  -- phase 1 of the second run is the identity on the tombstone table
  have hph1 : applyDeletionsTomb q.2 s1.tombstones = s1.tombstones := by
    refine applyDeletionsTomb_id _ _ hsorted1t fun p hp => ?_
    rw [hs1t]
    exact applyDeletionsTomb_lookup_mem q.2 s0.tombstones hfun p hp
  -- phase 2 of the second run changes nothing and emits only affirms
  have hph2 := applyInsertions_idem s1.tombstones q.1 s1.pairs s1.size hpost
  -- phase 3 of the second run is a no-op: no live pair of the first run's
  -- output still carries a deleted id
  have hph3pre : ∀ p ∈ q.2, ∀ w,
      alGet p.2 s1.pairs ≠ some (p.1, w) := by
    intro p hp w
    rw [hs1p]
    exact applyDeletionsPairs_post q.2 _ _ hsorted2p p hp w
  have hph3 : applyDeletionsPairs q.2 s1.pairs s1.size
      = (s1.pairs, s1.size, []) :=
    applyDeletionsPairs_noop q.2 s1.pairs s1.size hph3pre
  have hunf : procBatch s1 q true 0 0
      = (⟨(applyDeletionsPairs q.2
            (applyInsertions (applyDeletionsTomb q.2 s1.tombstones) q.1
              s1.pairs s1.size).1
            (applyInsertions (applyDeletionsTomb q.2 s1.tombstones) q.1
              s1.pairs s1.size).2.1).1,
          applyDeletionsTomb q.2 s1.tombstones,
          (applyDeletionsPairs q.2
            (applyInsertions (applyDeletionsTomb q.2 s1.tombstones) q.1
              s1.pairs s1.size).1
            (applyInsertions (applyDeletionsTomb q.2 s1.tombstones) q.1
              s1.pairs s1.size).2.1).2.1⟩,
        (applyInsertions (applyDeletionsTomb q.2 s1.tombstones) q.1
          s1.pairs s1.size).2.2
          ++ (applyDeletionsPairs q.2
            (applyInsertions (applyDeletionsTomb q.2 s1.tombstones) q.1
              s1.pairs s1.size).1
            (applyInsertions (applyDeletionsTomb q.2 s1.tombstones) q.1
              s1.pairs s1.size).2.1).2.2) := rfl
  rw [hunf, hph1, hph2.1, hph2.2.1, hph3]
  constructor
  · rfl
  · intro ev hev
    simp only [List.append_nil] at hev
    exact hph2.2.2 ev hev

/-- Witness for `c3_process_idempotent`: reprocessing a set-then-delete
batch. -/
theorem c3_process_idempotent_witness :
    alSorted (MapState.empty (V := Nat)).pairs ∧
    (procBatch (procBatch (MapState.empty (V := Nat))
        ([("k", "b", 5)], [("a", "k")]) true 0 0).1
        ([("k", "b", 5)], [("a", "k")]) true 0 0).1
      = (procBatch (MapState.empty (V := Nat))
        ([("k", "b", 5)], [("a", "k")]) true 0 0).1 :=
  ⟨List.Pairwise.nil,
    (c3_process_idempotent MapState.empty ([("k", "b", 5)], [("a", "k")])
      List.Pairwise.nil List.Pairwise.nil
      (by
        intro p hp p' hp' he
        simp only [List.mem_singleton] at hp hp'
        rw [hp, hp'])
      (by
        intro e he
        simp only [List.mem_singleton] at he
        subst he
        exact Or.inr ⟨"b", 5, by decide, Or.inl rfl⟩)).1⟩

/-- **C3** (counterexample to the claim as stated) — after installing
`("k", ("b", 2))`, the batch `[[("k", ("a", 1))], [("b", "k")]]` tombstones
the live id `"b"` while carrying the smaller non-tombstoned insertion
`"a"`: the first processing deletes the pair, the second processing
re-installs `("k", ("a", 1))`, changing the live pair table and emitting a
`set` event. -/
theorem c3_counterexample :
    ((procBatch (procBatch (procBatch (MapState.empty (V := Nat))
          ([("k", "b", 2)], []) true 0 0).1
        ([("k", "a", 1)], [("b", "k")]) true 0 0).1
        ([("k", "a", 1)], [("b", "k")]) true 0 0).1.pairs
      ≠ (procBatch (procBatch (MapState.empty (V := Nat))
          ([("k", "b", 2)], []) true 0 0).1
        ([("k", "a", 1)], [("b", "k")]) true 0 0).1.pairs) ∧
    MapEvent.set "k" 1 none ∈
      (procBatch (procBatch (procBatch (MapState.empty (V := Nat))
          ([("k", "b", 2)], []) true 0 0).1
        ([("k", "a", 1)], [("b", "k")]) true 0 0).1
        ([("k", "a", 1)], [("b", "k")]) true 0 0).2 := by decide

/-! ## The signed map (`dist/signed-map.js`, `_processSigned`)

`SignedObservedRemoveMap` adds two further ranges (`[` insertion signatures,
`]` deletion signatures) and a pluggable verifier.  The verifier is called
variadically — `verify(signature, key, value, id)` for insertions and
`verify(signature, key, id)` for deletions — which is modelled by passing a
list of arguments. -/

/-- One argument of the variadic `verify` call: a string (key or id) or a
stored value. -/
inductive VerifyArg (V : Type) where
  | str (s : String)
  | val (v : V)
  deriving DecidableEq

/-- A signed insertion `[signature, id, key, value]`. -/
abbrev SignedIns (V : Type) := String × String × String × V

/-- A signed deletion `[signature, id, key]`. -/
abbrev SignedDel := String × String × String

/-- The `InvalidSignatureError` thrown by `_processSigned` (the message text
is elided). -/
inductive SigError where
  | invalidSignature
  deriving DecidableEq

/-- The state of a `SignedObservedRemoveMap` replica: the core map state plus
the `[` (insertion-signature) and `]` (deletion-signature) ranges. -/
structure SignedMapState (V : Type) where
  core : MapState V
  insSigs : KV String
  delSigs : KV String
  deriving DecidableEq

/-- The first loop of `_processSigned`: for each signed insertion, verify the
signature, throwing on mismatch, and otherwise persist it under `N[id` and
collect the unsigned insertion.  Returns the signature range as mutated so
far, the collected queue, and whether every entry verified (the `false`
result models the throw, after the earlier puts have already happened). -/
def verifySignedIns (verify : String → List (VerifyArg V) → Bool) :
    List (SignedIns V) → KV String → KV String × List (Ins V) × Bool
  | [], sigs => (sigs, [], true)
  | (sig, i, k, v) :: rest, sigs =>
    if verify sig [.str k, .val v, .str i] then
      let r := verifySignedIns verify rest (alPut i sig sigs)
      (r.1, (k, i, v) :: r.2.1, r.2.2)
    else (sigs, [], false)

/-- The second loop of `_processSigned`, for signed deletions (signatures are
persisted under `N]id`). -/
def verifySignedDels (verify : String → List (VerifyArg V) → Bool) :
    List SignedDel → KV String → KV String × List Del × Bool
  | [], sigs => (sigs, [], true)
  | (sig, i, k) :: rest, sigs =>
    if verify sig [.str k, .str i] then
      let r := verifySignedDels verify rest (alPut i sig sigs)
      (r.1, (i, k) :: r.2.1, r.2.2)
    else (sigs, [], false)

/-- The cleanup loop of `_processSigned` (`part_002` lines 128–143): for each
signed insertion whose id is no longer the id of the live pair for its key
(absent or superseded), the source executes
`await this.db.del(N]id)` — it deletes from the `]` (deletion-signature)
range, not from the `[` (insertion-signature) range. -/
def cleanupSigs : List (SignedIns V) → KV (String × V) → KV String → KV String
  | [], _, ds => ds
  | (_, i, k, _) :: rest, ps, ds =>
    match alGet k ps with
    | some (j, _) => cleanupSigs rest ps (if j = i then ds else alDel i ds)
    | none => cleanupSigs rest ps (alDel i ds)

/-- `_processSigned(signedQueue, skipFlush)` (`part_002` lines 101–144):
verify/persist all insertion signatures, then all deletion signatures
(throwing `InvalidSignature` on the first mismatch, with the earlier puts
already applied), delegate to the unsigned `_process` (whose flush, via the
signed override, also range-deletes aged deletion signatures), then run the
cleanup loop.  Returns the state, the error if thrown, and the emitted
events. -/
def procSignedBatch (verify : String → List (VerifyArg V) → Bool)
    (s : SignedMapState V) (sq : List (SignedIns V) × List SignedDel)
    (skipFlush : Bool) (now maxAge : Nat) :
    SignedMapState V × Option SigError × List (MapEvent V) :=
  let ri := verifySignedIns verify sq.1 s.insSigs
  if ri.2.2 = false then
    (⟨s.core, ri.1, s.delSigs⟩, some .invalidSignature, [])
  else
    let rd := verifySignedDels verify sq.2 s.delSigs
    if rd.2.2 = false then
      (⟨s.core, ri.1, rd.1⟩, some .invalidSignature, [])
    else
      let rc := procBatch s.core (ri.2.1, rd.2.1) skipFlush now maxAge
      let ds0 := if skipFlush then rd.1 else flushT now maxAge rd.1
      (⟨rc.1, ri.1, cleanupSigs sq.1 rc.1.pairs ds0⟩, none, rc.2)

/-- `dump()` of the signed map, insertion half: each live pair is re-wrapped
with its stored insertion signature; a missing signature aborts with an
error (`none`). -/
def dumpSignedIns : KV (String × V) → KV String →
    Option (List (SignedIns V))
  | [], _ => some []
  | (k, (i, v)) :: rest, sigs =>
    match alGet i sigs with
    | some sig => (dumpSignedIns rest sigs).map fun q => (sig, i, k, v) :: q
    | none => none

/-- `dump()` of the signed map, deletion half. -/
def dumpSignedDels : KV String → KV String → Option (List SignedDel)
  | [], _ => some []
  | (i, k) :: rest, sigs =>
    match alGet i sigs with
    | some sig => (dumpSignedDels rest sigs).map fun q => (sig, i, k) :: q
    | none => none

/-- `dump()` of the signed map (`part_002` lines 50–83); `none` models the
`Missing signature …` error. -/
def dumpSigned (s : SignedMapState V) :
    Option (List (SignedIns V) × List SignedDel) :=
  match dumpSignedIns s.core.pairs s.insSigs,
      dumpSignedDels s.core.tombstones s.delSigs with
  | some a, some b => some (a, b)
  | _, _ => none

/-! ## C4, C5: signature failures reject the batch -/

theorem verifySignedIns_all_ok (verify : String → List (VerifyArg V) → Bool)
    (l : List (SignedIns V)) (sigs : KV String)
    (h : (verifySignedIns verify l sigs).2.2 = true) :
    ∀ e ∈ l, verify e.1 [.str e.2.2.1, .val e.2.2.2, .str e.2.1] = true := by
  induction l generalizing sigs with
  | nil => intro e he; cases he
  | cons e0 rest ih =>
    obtain ⟨sig, i, k, v⟩ := e0
    by_cases hv : verify sig [.str k, .val v, .str i] = true
    · simp only [verifySignedIns, hv, if_true] at h
      intro e he
      rcases List.mem_cons.mp he with he | he
      · rw [he]; exact hv
      · exact ih (alPut i sig sigs) h e he
    · simp only [verifySignedIns, if_neg hv] at h
      cases h

theorem verifySignedDels_all_ok (verify : String → List (VerifyArg V) → Bool)
    (l : List SignedDel) (sigs : KV String)
    (h : (verifySignedDels (V := V) verify l sigs).2.2 = true) :
    ∀ e ∈ l, verify e.1 [.str e.2.2, .str e.2.1] = true := by
  induction l generalizing sigs with
  | nil => intro e he; cases he
  | cons e0 rest ih =>
    obtain ⟨sig, i, k⟩ := e0
    by_cases hv : verify sig [.str k, .str i] = true
    · simp only [verifySignedDels, hv, if_true] at h
      intro e he
      rcases List.mem_cons.mp he with he | he
      · rw [he]; exact hv
      · exact ih (alPut i sig sigs) h e he
    · simp only [verifySignedDels, if_neg hv] at h
      cases h

/-- **C4** — A batch containing any entry whose signature fails verification
is rejected as a whole: `processSigned` throws `InvalidSignature`, the live
pair table, tombstone table and size are exactly as before (the unsigned
`process` step is never reached), and no events are emitted. -/
theorem c4_invalid_signature_rejects_batch
    (verify : String → List (VerifyArg V) → Bool) (s : SignedMapState V)
    (sq : List (SignedIns V) × List SignedDel) (skipFlush : Bool)
    (now maxAge : Nat)
    (hbad : (∃ e ∈ sq.1,
        verify e.1 [.str e.2.2.1, .val e.2.2.2, .str e.2.1] = false) ∨
      (∃ e ∈ sq.2, verify e.1 [.str e.2.2, .str e.2.1] = false)) :
    (procSignedBatch verify s sq skipFlush now maxAge).2.1
      = some SigError.invalidSignature ∧
    (procSignedBatch verify s sq skipFlush now maxAge).1.core = s.core ∧
    (procSignedBatch verify s sq skipFlush now maxAge).2.2 = [] := by
  cases hri : (verifySignedIns verify sq.1 s.insSigs).2.2 with
  | false =>
    simp [procSignedBatch, hri]
  | true =>
    have hinsok := verifySignedIns_all_ok verify sq.1 s.insSigs hri
    cases hrd : (verifySignedDels (V := V) verify sq.2 s.delSigs).2.2 with
    | false =>
      simp [procSignedBatch, hri, hrd]
    | true =>
      exfalso
      have hdelok := verifySignedDels_all_ok verify sq.2 s.delSigs hrd
      rcases hbad with ⟨e, he, hv⟩ | ⟨e, he, hv⟩
      · rw [hinsok e he] at hv; cases hv
      · rw [hdelok e he] at hv; cases hv

/-- Witness for `c4_invalid_signature_rejects_batch` with a concrete forged
signature. -/
theorem c4_invalid_signature_rejects_batch_witness :
    (procSignedBatch (fun sig _ => sig == "g")
        (⟨MapState.empty (V := Nat), [], []⟩ : SignedMapState Nat)
        ([("bad", "i", "k", 1)], []) true 0 0).2.1
      = some SigError.invalidSignature :=
  (c4_invalid_signature_rejects_batch (fun sig _ => sig == "g")
    ⟨MapState.empty, [], []⟩ ([("bad", "i", "k", 1)], []) true 0 0
    (Or.inl ⟨("bad", "i", "k", 1), by decide, by decide⟩)).1

theorem takeWhile_eq_self_of_all {α : Type} (p : α → Bool) (l : List α)
    (h : ∀ e ∈ l, p e = true) : l.takeWhile p = l := by
  induction l with
  | nil => rfl
  | cons e rest ih =>
    rw [List.takeWhile_cons, h e (by simp)]
    rw [ih fun x hx => h x (List.mem_cons_of_mem _ hx)]
    simp

theorem verifySignedIns_sigs (verify : String → List (VerifyArg V) → Bool)
    (l : List (SignedIns V)) (sigs : KV String) :
    (verifySignedIns verify l sigs).1
      = List.foldl (fun sg (e : SignedIns V) => alPut e.2.1 e.1 sg) sigs
          (l.takeWhile fun e =>
            verify e.1 [.str e.2.2.1, .val e.2.2.2, .str e.2.1]) := by
  induction l generalizing sigs with
  | nil => rfl
  | cons e0 rest ih =>
    obtain ⟨sig, i, k, v⟩ := e0
    by_cases hv : verify sig [.str k, .val v, .str i] = true
    · simp only [verifySignedIns, hv, if_true, List.takeWhile_cons]
      simp only [List.foldl_cons]
      exact ih (alPut i sig sigs)
    · simp only [verifySignedIns, if_neg hv, List.takeWhile_cons]
      rfl

theorem verifySignedDels_sigs (verify : String → List (VerifyArg V) → Bool)
    (l : List SignedDel) (sigs : KV String) :
    (verifySignedDels (V := V) verify l sigs).1
      = List.foldl (fun sg (e : SignedDel) => alPut e.2.1 e.1 sg) sigs
          (l.takeWhile fun e => verify e.1 [.str e.2.2, .str e.2.1]) := by
  induction l generalizing sigs with
  | nil => rfl
  | cons e0 rest ih =>
    obtain ⟨sig, i, k⟩ := e0
    by_cases hv : verify sig [.str k, .str i] = true
    · simp only [verifySignedDels, hv, if_true, List.takeWhile_cons]
      simp only [List.foldl_cons]
      exact ih (alPut i sig sigs)
    · simp only [verifySignedDels, if_neg hv, List.takeWhile_cons]
      rfl

theorem verifySignedIns_ok_of_all (verify : String → List (VerifyArg V) → Bool)
    (l : List (SignedIns V)) (sigs : KV String)
    (h : ∀ e ∈ l, verify e.1 [.str e.2.2.1, .val e.2.2.2, .str e.2.1] = true) :
    (verifySignedIns verify l sigs).2.2 = true := by
  induction l generalizing sigs with
  | nil => rfl
  | cons e0 rest ih =>
    obtain ⟨sig, i, k, v⟩ := e0
    have hv := h (sig, i, k, v) (by simp)
    simp only [verifySignedIns, hv, if_true]
    exact ih (alPut i sig sigs) fun e he => h e (List.mem_cons_of_mem _ he)

/-- **C5** (amended) — When a signature in the batch fails verification, the
call throws `InvalidSignature` and the live pair table and tombstone table
are untouched (the unsigned `process` step is never reached and no events
are emitted); however, verification and signature persistence are
interleaved per entry, so the signature records of the validly-signed
entries *preceding* the first failing entry have already been persisted: on
an insertion failure the insertion-signature range has received exactly the
puts of the verified prefix, and on a deletion failure (all insertions
valid) the insertion-signature range has received all insertion signatures
and the deletion-signature range the puts of the verified prefix. -/
theorem c5_verification_interleaved_with_writes
    (verify : String → List (VerifyArg V) → Bool) (s : SignedMapState V)
    (sq : List (SignedIns V) × List SignedDel) (skipFlush : Bool)
    (now maxAge : Nat) :
    ((∃ e ∈ sq.1,
        verify e.1 [.str e.2.2.1, .val e.2.2.2, .str e.2.1] = false) →
      (procSignedBatch verify s sq skipFlush now maxAge).2.1
          = some SigError.invalidSignature ∧
      (procSignedBatch verify s sq skipFlush now maxAge).1.core = s.core ∧
      (procSignedBatch verify s sq skipFlush now maxAge).2.2 = [] ∧
      (procSignedBatch verify s sq skipFlush now maxAge).1.delSigs
          = s.delSigs ∧
      (procSignedBatch verify s sq skipFlush now maxAge).1.insSigs
        = List.foldl (fun sg (e : SignedIns V) => alPut e.2.1 e.1 sg)
            s.insSigs
            (sq.1.takeWhile fun e =>
              verify e.1 [.str e.2.2.1, .val e.2.2.2, .str e.2.1])) ∧
    ((∀ e ∈ sq.1,
        verify e.1 [.str e.2.2.1, .val e.2.2.2, .str e.2.1] = true) →
      (∃ e ∈ sq.2, verify e.1 [.str e.2.2, .str e.2.1] = false) →
      (procSignedBatch verify s sq skipFlush now maxAge).2.1
          = some SigError.invalidSignature ∧
      (procSignedBatch verify s sq skipFlush now maxAge).1.core = s.core ∧
      (procSignedBatch verify s sq skipFlush now maxAge).2.2 = [] ∧
      (procSignedBatch verify s sq skipFlush now maxAge).1.insSigs
        = List.foldl (fun sg (e : SignedIns V) => alPut e.2.1 e.1 sg)
            s.insSigs sq.1 ∧
      (procSignedBatch verify s sq skipFlush now maxAge).1.delSigs
        = List.foldl (fun sg (e : SignedDel) => alPut e.2.1 e.1 sg)
            s.delSigs
            (sq.2.takeWhile fun e =>
              verify e.1 [.str e.2.2, .str e.2.1])) := by
  constructor
  · intro hbad
    cases hri : (verifySignedIns verify sq.1 s.insSigs).2.2 with
    | false =>
      refine ⟨by simp [procSignedBatch, hri], by simp [procSignedBatch, hri],
        by simp [procSignedBatch, hri], by simp [procSignedBatch, hri], ?_⟩
      have : (procSignedBatch verify s sq skipFlush now maxAge).1.insSigs
          = (verifySignedIns verify sq.1 s.insSigs).1 := by
        simp [procSignedBatch, hri]
      rw [this, verifySignedIns_sigs]
    | true =>
      exfalso
      obtain ⟨e, he, hv⟩ := hbad
      rw [verifySignedIns_all_ok verify sq.1 s.insSigs hri e he] at hv
      cases hv
  · intro hok hbad
    have hri : (verifySignedIns verify sq.1 s.insSigs).2.2 = true :=
      verifySignedIns_ok_of_all verify sq.1 s.insSigs hok
    cases hrd : (verifySignedDels (V := V) verify sq.2 s.delSigs).2.2 with
    | false =>
      refine ⟨by simp [procSignedBatch, hri, hrd],
        by simp [procSignedBatch, hri, hrd],
        by simp [procSignedBatch, hri, hrd], ?_, ?_⟩
      · have : (procSignedBatch verify s sq skipFlush now maxAge).1.insSigs
            = (verifySignedIns verify sq.1 s.insSigs).1 := by
          simp [procSignedBatch, hri, hrd]
        rw [this, verifySignedIns_sigs,
          takeWhile_eq_self_of_all _ sq.1 hok]
      · have : (procSignedBatch verify s sq skipFlush now maxAge).1.delSigs
            = (verifySignedDels (V := V) verify sq.2 s.delSigs).1 := by
          simp [procSignedBatch, hri, hrd]
        rw [this, verifySignedDels_sigs]
    | true =>
      exfalso
      obtain ⟨e, he, hv⟩ := hbad
      rw [verifySignedDels_all_ok verify sq.2 s.delSigs hrd e he] at hv
      cases hv

/-- Witness for `c5_verification_interleaved_with_writes`: the valid first
entry's signature is persisted although the batch is rejected. -/
theorem c5_verification_interleaved_with_writes_witness :
    (procSignedBatch (fun sig _ => sig == "g")
        (⟨MapState.empty (V := Nat), [], []⟩ : SignedMapState Nat)
        ([("g", "i1", "k1", 1), ("bad", "i2", "k2", 2)], []) true 0 0).2.1
      = some SigError.invalidSignature ∧
    (procSignedBatch (fun sig _ => sig == "g")
        (⟨MapState.empty (V := Nat), [], []⟩ : SignedMapState Nat)
        ([("g", "i1", "k1", 1), ("bad", "i2", "k2", 2)], []) true 0 0).1.insSigs
      = List.foldl (fun sg (e : SignedIns Nat) => alPut e.2.1 e.1 sg) []
          (([("g", "i1", "k1", 1), ("bad", "i2", "k2", 2)]
            : List (SignedIns Nat)).takeWhile fun e =>
              (fun (sig : String) (_ : List (VerifyArg Nat)) => sig == "g")
                e.1 [.str e.2.2.1, .val e.2.2.2, .str e.2.1]) :=
  ⟨((c5_verification_interleaved_with_writes (fun sig _ => sig == "g")
      ⟨MapState.empty, [], []⟩
      ([("g", "i1", "k1", 1), ("bad", "i2", "k2", 2)], []) true 0 0).1
      ⟨("bad", "i2", "k2", 2), by decide, by decide⟩).1,
   ((c5_verification_interleaved_with_writes (fun sig _ => sig == "g")
      ⟨MapState.empty, [], []⟩
      ([("g", "i1", "k1", 1), ("bad", "i2", "k2", 2)], []) true 0 0).1
      ⟨("bad", "i2", "k2", 2), by decide, by decide⟩).2.2.2.2⟩

/-- **C5** (counterexample to the claim as stated) — in a batch whose first
insertion is validly signed and whose second is forged, the call throws, yet
the first entry's insertion signature has been persisted: the signature
store is mutated, so not all verifications precede all writes. -/
theorem c5_counterexample :
    (procSignedBatch (fun sig _ => sig == "g")
        (⟨MapState.empty (V := Nat), [], []⟩ : SignedMapState Nat)
        ([("g", "i1", "k1", 1), ("bad", "i2", "k2", 2)], []) true 0 0).2.1
      = some SigError.invalidSignature ∧
    alGet "i1" (procSignedBatch (fun sig _ => sig == "g")
        (⟨MapState.empty (V := Nat), [], []⟩ : SignedMapState Nat)
        ([("g", "i1", "k1", 1), ("bad", "i2", "k2", 2)], []) true 0 0).1.insSigs
      = some "g" := by decide

/-! ## C6: the cleanup loop deletes from the wrong signature range -/

/-- **C6** (code bug) — For a signed insertion whose id is superseded for its
key, `processSigned`'s cleanup loop executes `this.db.del(N]id)`: it deletes
the *deletion*-signature record instead of the insertion-signature record
under `[` that §4.3 says it removes.  Concretely: with live pair
`("k" ↦ ("b", 2))`, tombstone `("a" ↦ "k")` and stored deletion signature
`"a" ↦ "dsigA"`, processing the superseded signed insertion
`("s1", "a", "k", 1)` leaves the just-persisted insertion signature
`"a" ↦ "s1"` in the store (the claim says it is removed), destroys the
unrelated deletion signature for `"a"`, and thereby makes the map's own
`dump()` fail with a missing deletion signature (`isSome = false`). -/
theorem c6_cleanup_deletes_wrong_range :
    (procSignedBatch (fun _ _ => true)
        (⟨⟨[("k", ("b", 2))], [("a", "k")], 1⟩, [("b", "sigB")],
          [("a", "dsigA")]⟩ : SignedMapState Nat)
        ([("s1", "a", "k", 1)], []) true 0 0).2.1 = none ∧
    alGet "a" (procSignedBatch (fun _ _ => true)
        (⟨⟨[("k", ("b", 2))], [("a", "k")], 1⟩, [("b", "sigB")],
          [("a", "dsigA")]⟩ : SignedMapState Nat)
        ([("s1", "a", "k", 1)], []) true 0 0).1.insSigs = some "s1" ∧
    alGet "a" (procSignedBatch (fun _ _ => true)
        (⟨⟨[("k", ("b", 2))], [("a", "k")], 1⟩, [("b", "sigB")],
          [("a", "dsigA")]⟩ : SignedMapState Nat)
        ([("s1", "a", "k", 1)], []) true 0 0).1.delSigs = none ∧
    (dumpSigned (⟨⟨[("k", ("b", 2))], [("a", "k")], 1⟩, [("b", "sigB")],
        [("a", "dsigA")]⟩ : SignedMapState Nat)).isSome = true ∧
    (dumpSigned (procSignedBatch (fun _ _ => true)
        (⟨⟨[("k", ("b", 2))], [("a", "k")], 1⟩, [("b", "sigB")],
          [("a", "dsigA")]⟩ : SignedMapState Nat)
        ([("s1", "a", "k", 1)], []) true 0 0).1).isSome = false := by decide

/-! ## C2: convergence of `process`

The final state of a replica is characterised by the *set* of operations it
has processed, provided the operations are coherent (each id determines its
operation — spec invariant 3) and deletions are per-key downward closed
(whenever an insertion id for a key is tombstoned, every smaller insertion
id for the same key is tombstoned too; batches generated by `set`/`delete`
have this shape because every supersession also emits a deletion).  Without
downward closure the claim is false — see `c2_counterexample`. -/

/-- All insertions delivered by a sequence of batches. -/
def allIns (bs : List (Batch V)) : List (Ins V) := (bs.map Prod.fst).flatten

/-- All deletions delivered by a sequence of batches. -/
def allDels (bs : List (Batch V)) : List Del := (bs.map Prod.snd).flatten

/-- `i` is tombstoned by some delivered deletion. -/
def isTombIn (hd : List Del) (i : String) : Prop := ∃ k, (i, k) ∈ hd

/-- A surviving insertion id `i` for `key` is *swallowed* when some larger,
tombstoned insertion id for the same key has been delivered: processing the
larger insertion first and then its deletion removes the live pair without
restoring `i`. -/
def Swallowed (hi : List (Ins V)) (hd : List Del) (key i : String) : Prop :=
  ∃ j vj, (key, j, vj) ∈ hi ∧ isTombIn hd j ∧ i < j

/-- The reachability invariant of a replica that has processed batches whose
delivered insertions/deletions are `hi`/`hd` (each possibly several
times). -/
structure Reach (hi : List (Ins V)) (hd : List Del) (s : MapState V) :
    Prop where
  tomb_iff : ∀ i k, alGet i s.tombstones = some k ↔ (i, k) ∈ hd
  pair_mem : ∀ k i v, alGet k s.pairs = some (i, v) →
    (k, i, v) ∈ hi ∧ ¬isTombIn hd i
  pair_dom : ∀ k i' v', (k, i', v') ∈ hi → ¬isTombIn hd i' →
    Swallowed hi hd k i' ∨
      ∃ i v, alGet k s.pairs = some (i, v) ∧ i' ≤ i
  sorted_p : alSorted s.pairs
  sorted_t : alSorted s.tombstones

theorem Reach_empty : Reach ([] : List (Ins V)) [] MapState.empty where
  tomb_iff := by intro i k; simp [MapState.empty, alGet]
  pair_mem := by intro k i v h; simp [MapState.empty, alGet] at h
  pair_dom := by intro k i' v' h; cases h
  sorted_p := List.Pairwise.nil
  sorted_t := List.Pairwise.nil

/-- Phase 1 extends the tombstone characterisation, using functionality of
deletion ids (spec invariant 3). -/
theorem phase1_tomb_iff {delS : List Del}
    (hc2 : ∀ a ∈ delS, ∀ b ∈ delS, a.1 = b.1 → a.2 = b.2) :
    ∀ (bd : List Del) (hd : List Del) (t : KV String),
    (∀ x ∈ hd, x ∈ delS) → (∀ x ∈ bd, x ∈ delS) →
    (∀ i k, alGet i t = some k ↔ (i, k) ∈ hd) →
    ∀ i k, alGet i (applyDeletionsTomb bd t) = some k ↔
      (i, k) ∈ hd ∨ (i, k) ∈ bd := by
  intro bd
  induction bd with
  | nil =>
    intro hd t hsub hsubB h i k
    rw [applyDeletionsTomb, h]
    simp
  | cons d rest ih =>
    obtain ⟨i0, k0⟩ := d
    intro hd t hsub hsubB h i k
    have hstep : ∀ i k, alGet i (alPut i0 k0 t) = some k ↔
        (i, k) ∈ hd ++ [(i0, k0)] := by
      intro i k
      by_cases hi : i = i0
      · subst hi
        rw [alGet_alPut_self]
        constructor
        · intro hk
          injection hk with hk
          simp [hk]
        · intro hk
          rcases List.mem_append.mp hk with hk | hk
          · have := hc2 (i, k) (hsub _ hk) (i, k0) (hsubB _ (by simp)) rfl
            exact congrArg some this.symm
          · simp at hk
            rw [hk]
      · rw [alGet_alPut_other hi, h]
        constructor
        · intro hk; exact List.mem_append.mpr (Or.inl hk)
        · intro hk
          rcases List.mem_append.mp hk with hk | hk
          · exact hk
          · simp at hk
            exact absurd hk.1 hi
    have := ih (hd ++ [(i0, k0)]) (alPut i0 k0 t)
      (by
        intro x hx
        rcases List.mem_append.mp hx with hx | hx
        · exact hsub _ hx
        · simp at hx
          rw [hx]
          exact hsubB _ (by simp))
      (fun x hx => hsubB _ (List.mem_cons_of_mem _ hx)) hstep i k
    rw [applyDeletionsTomb, this]
    simp [or_assoc]

/-- Intermediate phase-2 invariant: every live pair is either a legitimate
old pair (delivered, not tombstoned by the *old* deletions) or was installed
by the already-processed prefix of the batch (not tombstoned by the *new*
deletions). -/
def PMem (hi done : List (Ins V)) (hd hd' : List Del)
    (ps : KV (String × V)) : Prop :=
  ∀ k i v, alGet k ps = some (i, v) →
    ((k, i, v) ∈ hi ∧ ¬isTombIn hd i) ∨ ((k, i, v) ∈ done ∧ ¬isTombIn hd' i)

/-- Intermediate phase-2 invariant: every delivered surviving insertion is
swallowed or dominated by the current live pair of its key. -/
def PDom (hi done : List (Ins V)) (hd' : List Del)
    (ps : KV (String × V)) : Prop :=
  ∀ k i' v', (k, i', v') ∈ hi ++ done → ¬isTombIn hd' i' →
    Swallowed (hi ++ done) hd' k i' ∨
      ∃ i v, alGet k ps = some (i, v) ∧ i' ≤ i

theorem Swallowed_mono {hi₁ hi₂ : List (Ins V)} {hd₁ hd₂ : List Del}
    (hsubI : ∀ x ∈ hi₁, x ∈ hi₂) (hsubD : ∀ x ∈ hd₁, x ∈ hd₂)
    (h : Swallowed hi₁ hd₁ k i) : Swallowed hi₂ hd₂ k i := by
  obtain ⟨j, vj, hm, ⟨kj, hkj⟩, hlt⟩ := h
  exact ⟨j, vj, hsubI _ hm, ⟨kj, hsubD _ hkj⟩, hlt⟩

theorem PMem_mono_done {hi d1 d2 : List (Ins V)} {hd hd' : List Del}
    {ps : KV (String × V)} (hsub : ∀ x ∈ d1, x ∈ d2)
    (h : PMem hi d1 hd hd' ps) : PMem hi d2 hd hd' ps := by
  intro k i v hlk
  rcases h k i v hlk with h | ⟨hm, ht⟩
  · exact Or.inl h
  · exact Or.inr ⟨hsub _ hm, ht⟩

theorem mem_ext_done {hi done : List (Ins V)} (op : Ins V) :
    ∀ x ∈ hi ++ done, x ∈ hi ++ (done ++ [op]) := by
  intro x hx
  rcases List.mem_append.mp hx with hx | hx
  · exact List.mem_append.mpr (Or.inl hx)
  · exact List.mem_append.mpr (Or.inr (List.mem_append.mpr (Or.inl hx)))

/-- Extending the processed prefix by an operation that did not change the
live pairs preserves `PDom`, provided the new operation itself is handled. -/
theorem PDom_ext_skip {hi done : List (Ins V)} {hd' : List Del}
    {ps : KV (String × V)} (op : Ins V) (hdom : PDom hi done hd' ps)
    (hop : ¬isTombIn hd' op.2.1 →
      Swallowed (hi ++ (done ++ [op])) hd' op.1 op.2.1 ∨
      ∃ i v, alGet op.1 ps = some (i, v) ∧ op.2.1 ≤ i) :
    PDom hi (done ++ [op]) hd' ps := by
  intro k2 i' v' hmem hnt
  rcases List.mem_append.mp hmem with hmem | hmem
  · rcases hdom k2 i' v' (List.mem_append.mpr (Or.inl hmem)) hnt with hsw | hp
    · exact Or.inl (Swallowed_mono (mem_ext_done op) (fun x hx => hx) hsw)
    · exact Or.inr hp
  · rcases List.mem_append.mp hmem with hmem | hmem
    · rcases hdom k2 i' v' (List.mem_append.mpr (Or.inr hmem)) hnt with
        hsw | hp
      · exact Or.inl (Swallowed_mono (mem_ext_done op) (fun x hx => hx) hsw)
      · exact Or.inr hp
    · have hmem' : (k2, i', v') = op := List.mem_singleton.mp hmem
      subst hmem'
      exact hop hnt

/-- Extending the processed prefix by an insertion `(k, i, v)` that was
installed preserves `PDom`, provided the previous pair for `k` (if any) had
id at most `i`. -/
theorem PDom_ext_put {hi done : List (Ins V)} {hd' : List Del}
    {ps : KV (String × V)} {k i : String} {v : V}
    (hdom : PDom hi done hd' ps)
    (hmono : ∀ i0, (∃ v0, alGet k ps = some (i0, v0)) → i0 ≤ i) :
    PDom hi (done ++ [(k, i, v)]) hd' (alPut k (i, v) ps) := by
  intro k2 i' v' hmem hnt
  by_cases hk2 : k2 = k
  · subst hk2
    rcases List.mem_append.mp hmem with hmem | hmem
    · rcases hdom k2 i' v' (List.mem_append.mpr (Or.inl hmem)) hnt with
        hsw | ⟨i0, v0, hlk0, hle⟩
      · exact Or.inl
          (Swallowed_mono (mem_ext_done (k2, i, v)) (fun x hx => hx) hsw)
      · exact Or.inr ⟨i, v, alGet_alPut_self _ _ _,
          le_trans hle (hmono i0 ⟨v0, hlk0⟩)⟩
    · rcases List.mem_append.mp hmem with hmem | hmem
      · rcases hdom k2 i' v' (List.mem_append.mpr (Or.inr hmem)) hnt with
          hsw | ⟨i0, v0, hlk0, hle⟩
        · exact Or.inl
            (Swallowed_mono (mem_ext_done (k2, i, v)) (fun x hx => hx) hsw)
        · exact Or.inr ⟨i, v, alGet_alPut_self _ _ _,
            le_trans hle (hmono i0 ⟨v0, hlk0⟩)⟩
      · have hmem' : (k2, i', v') = (k2, i, v) := List.mem_singleton.mp hmem
        injection hmem' with h1 h2
        injection h2 with h2 h3
        subst h2
        exact Or.inr ⟨i', v, alGet_alPut_self _ _ _, le_refl i'⟩
  · have hlk' : alGet k2 (alPut k (i, v) ps) = alGet k2 ps :=
      alGet_alPut_other hk2 _ _
    rcases List.mem_append.mp hmem with hmem | hmem
    · rcases hdom k2 i' v' (List.mem_append.mpr (Or.inl hmem)) hnt with
        hsw | ⟨i0, v0, hlk0, hle⟩
      · exact Or.inl
          (Swallowed_mono (mem_ext_done (k, i, v)) (fun x hx => hx) hsw)
      · exact Or.inr ⟨i0, v0, by rw [hlk']; exact hlk0, hle⟩
    · rcases List.mem_append.mp hmem with hmem | hmem
      · rcases hdom k2 i' v' (List.mem_append.mpr (Or.inr hmem)) hnt with
          hsw | ⟨i0, v0, hlk0, hle⟩
        · exact Or.inl
            (Swallowed_mono (mem_ext_done (k, i, v)) (fun x hx => hx) hsw)
        · exact Or.inr ⟨i0, v0, by rw [hlk']; exact hlk0, hle⟩
      · have hmem' : (k2, i', v') = (k, i, v) := List.mem_singleton.mp hmem
        injection hmem' with h1 h2
        exact absurd h1 hk2

theorem PMem_put {hi done : List (Ins V)} {hd hd' : List Del}
    {ps : KV (String × V)} {k i : String} {v : V}
    (hm : PMem hi done hd hd' ps) (hnt : ¬isTombIn hd' i) :
    PMem hi (done ++ [(k, i, v)]) hd hd' (alPut k (i, v) ps) := by
  intro k2 i2 v2 hlk
  by_cases hk2 : k2 = k
  · subst hk2
    rw [alGet_alPut_self] at hlk
    injection hlk with hlk
    injection hlk with h1 h2
    subst h1
    subst h2
    exact Or.inr ⟨List.mem_append.mpr (Or.inr (by simp)), hnt⟩
  · rw [alGet_alPut_other hk2] at hlk
    exact PMem_mono_done (fun x hx => List.mem_append.mpr (Or.inl hx))
      hm k2 i2 v2 hlk

/-- The phase-2 insertion loop preserves the intermediate invariants. -/
theorem phase2_inv (hi : List (Ins V)) (hd hd' : List Del) (t1 : KV String)
    (htomb : ∀ i, (alGet i t1).isSome = true ↔ isTombIn hd' i) :
    ∀ (ins done : List (Ins V)) (ps : KV (String × V)) (sz : Int),
    alSorted ps → PMem hi done hd hd' ps → PDom hi done hd' ps →
    alSorted (applyInsertions t1 ins ps sz).1 ∧
    PMem hi (done ++ ins) hd hd' (applyInsertions t1 ins ps sz).1 ∧
    PDom hi (done ++ ins) hd' (applyInsertions t1 ins ps sz).1 := by
  intro ins
  induction ins with
  | nil =>
    intro done ps sz hs hm hdom
    simp only [applyInsertions, List.append_nil]
    exact ⟨hs, hm, hdom⟩
  | cons e rest ih =>
    obtain ⟨k, i, v⟩ := e
    intro done ps sz hs hm hdom
    have heq : done ++ ((k, i, v) :: rest) = (done ++ [(k, i, v)]) ++ rest :=
      by simp
    rw [heq]
    by_cases h : (alGet i t1).isSome = true
    · -- tombstoned: skipped
      have ht : isTombIn hd' i := (htomb i).mp h
      simp only [applyInsertions, h, if_true]
      exact ih (done ++ [(k, i, v)]) ps sz hs
        (PMem_mono_done (fun x hx => List.mem_append.mpr (Or.inl hx)) hm)
        (PDom_ext_skip (k, i, v) hdom (fun hnt => absurd ht hnt))
    · have hnotomb : ¬isTombIn hd' i := fun hc => h ((htomb i).mpr hc)
      cases h2 : alGet k ps with
      | none =>
        simp only [applyInsertions, h, Bool.false_eq_true, if_false, h2]
        exact ih (done ++ [(k, i, v)]) (alPut k (i, v) ps) (sz + 1)
          (alSorted_alPut hs) (PMem_put hm hnotomb)
          (PDom_ext_put hdom (fun i0 hv0 => by
            obtain ⟨v0, hl⟩ := hv0
            rw [h2] at hl
            cases hl))
      | some p =>
        obtain ⟨j, w⟩ := p
        by_cases hji : strLtb j i = true
        · have hjilt : j < i := (strLtb_iff j i).mp hji
          simp only [applyInsertions, h, Bool.false_eq_true, if_false, h2,
            hji, if_true]
          exact ih (done ++ [(k, i, v)]) (alPut k (i, v) ps) sz
            (alSorted_alPut hs) (PMem_put hm hnotomb)
            (PDom_ext_put hdom (fun i0 hv0 => by
              obtain ⟨v0, hl⟩ := hv0
              rw [h2] at hl
              injection hl with hl
              injection hl with hl1 hl2
              subst hl1
              exact le_of_lt hjilt))
        · by_cases hje : j = i
          · subst hje
            simp only [applyInsertions, h, Bool.false_eq_true, if_false, h2,
              hji, Bool.false_eq_true, if_false, if_pos rfl]
            exact ih (done ++ [(k, j, v)]) ps sz hs
              (PMem_mono_done
                (fun x hx => List.mem_append.mpr (Or.inl hx)) hm)
              (PDom_ext_skip (k, j, v) hdom
                (fun _ => Or.inr ⟨j, w, h2, le_refl j⟩))
          · have hij : i < j := by
              rcases lt_trichotomy i j with h' | h' | h'
              · exact h'
              · exact absurd h'.symm hje
              · exact absurd (strLtb_of_lt h') (by simp [hji])
            simp only [applyInsertions, h, Bool.false_eq_true, if_false, h2,
              hji, Bool.false_eq_true, if_false, if_neg hje]
            exact ih (done ++ [(k, i, v)]) ps sz hs
              (PMem_mono_done
                (fun x hx => List.mem_append.mpr (Or.inl hx)) hm)
              (PDom_ext_skip (k, i, v) hdom
                (fun _ => Or.inr ⟨j, w, h2, le_of_lt hij⟩))

/-- A pair that survives phase 3 was there before, and its exact deletion is
not in the batch. -/
theorem applyDeletionsPairs_lookup_some (ds : List Del) :
    ∀ (ps : KV (String × V)) (sz : Int), alSorted ps →
    ∀ k i v, alGet k (applyDeletionsPairs ds ps sz).1 = some (i, v) →
    alGet k ps = some (i, v) ∧ (i, k) ∉ ds := by
  induction ds with
  | nil => intro ps sz hs k i v hlk; exact ⟨hlk, by simp⟩
  | cons d rest ih =>
    obtain ⟨i0, k0⟩ := d
    intro ps sz hs k i v hlk
    cases h2 : alGet k0 ps with
    | none =>
      rw [applyDeletionsPairs, h2] at hlk
      obtain ⟨hold, hnin⟩ := ih ps sz hs k i v hlk
      refine ⟨hold, fun hmem => ?_⟩
      rcases List.mem_cons.mp hmem with hmem | hmem
      · injection hmem with he1 he2
        subst he2
        rw [hold] at h2
        cases h2
      · exact hnin hmem
    | some pr =>
      obtain ⟨j, w⟩ := pr
      by_cases hj : j = i0
      · rw [applyDeletionsPairs] at hlk
        simp only [h2, hj, if_pos rfl] at hlk
        obtain ⟨hold, hnin⟩ := ih (alDel k0 ps) (sz - 1)
          (alSorted_alDel hs) k i v hlk
        have hk0 : k ≠ k0 := by
          intro he
          subst he
          rw [alGet_alDel_self hs] at hold
          cases hold
        rw [alGet_alDel_other hk0] at hold
        refine ⟨hold, fun hmem => ?_⟩
        rcases List.mem_cons.mp hmem with hmem | hmem
        · injection hmem with he1 he2
          exact hk0 he2
        · exact hnin hmem
      · rw [applyDeletionsPairs] at hlk
        simp only [h2, hj, if_false] at hlk
        obtain ⟨hold, hnin⟩ := ih ps sz hs k i v hlk
        refine ⟨hold, fun hmem => ?_⟩
        rcases List.mem_cons.mp hmem with hmem | hmem
        · injection hmem with he1 he2
          subst he1
          subst he2
          rw [hold] at h2
          injection h2 with h2
          injection h2 with h21 h22
          exact hj h21.symm
        · exact hnin hmem

/-- A pair removed during phase 3 had its exact deletion in the batch. -/
theorem applyDeletionsPairs_removed (ds : List Del) :
    ∀ (ps : KV (String × V)) (sz : Int), alSorted ps →
    ∀ k i v, alGet k ps = some (i, v) →
    alGet k (applyDeletionsPairs ds ps sz).1 = none → (i, k) ∈ ds := by
  induction ds with
  | nil =>
    intro ps sz hs k i v hlk hnone
    simp only [applyDeletionsPairs] at hnone
    rw [hlk] at hnone
    cases hnone
  | cons d rest ih =>
    obtain ⟨i0, k0⟩ := d
    intro ps sz hs k i v hlk hnone
    cases h2 : alGet k0 ps with
    | none =>
      rw [applyDeletionsPairs, h2] at hnone
      exact List.mem_cons_of_mem _ (ih ps sz hs k i v hlk hnone)
    | some pr =>
      obtain ⟨j, w⟩ := pr
      by_cases hj : j = i0
      · by_cases hk : k = k0
        · subst hk
          rw [hlk] at h2
          injection h2 with h2
          injection h2 with h21 h22
          subst hj
          rw [h21]
          exact List.mem_cons_self _ _
        · rw [applyDeletionsPairs] at hnone
          simp only [h2, hj, if_pos rfl] at hnone
          have hlk' : alGet k (alDel k0 ps) = some (i, v) := by
            rw [alGet_alDel_other hk]
            exact hlk
          exact List.mem_cons_of_mem _
            (ih (alDel k0 ps) (sz - 1) (alSorted_alDel hs) k i v hlk' hnone)
      · rw [applyDeletionsPairs] at hnone
        simp only [h2, hj, if_false] at hnone
        exact List.mem_cons_of_mem _ (ih ps sz hs k i v hlk hnone)

/-- One `_process` batch preserves the reachability invariant. -/
theorem Reach_procBatch {insS : List (Ins V)} {delS : List Del}
    (hc2 : ∀ a ∈ delS, ∀ b ∈ delS, a.1 = b.1 → a.2 = b.2)
    (hc3 : ∀ a ∈ insS, ∀ b ∈ delS, a.2.1 = b.1 → a.1 = b.2)
    {hi : List (Ins V)} {hd : List Del} {s : MapState V}
    (hR : Reach hi hd s)
    (hsubI : ∀ x ∈ hi, x ∈ insS) (hsubD : ∀ x ∈ hd, x ∈ delS)
    (b : Batch V) (_hbI : ∀ x ∈ b.1, x ∈ insS)
    (hbD : ∀ x ∈ b.2, x ∈ delS) :
    Reach (hi ++ b.1) (hd ++ b.2) (procBatch s b true 0 0).1 := by
  have htombiff : ∀ i k,
      alGet i (applyDeletionsTomb b.2 s.tombstones) = some k ↔
        (i, k) ∈ hd ++ b.2 := by
    intro i k
    rw [phase1_tomb_iff hc2 b.2 hd s.tombstones hsubD hbD hR.tomb_iff]
    exact (List.mem_append (a := (i, k))).symm
  have htombsome : ∀ i,
      (alGet i (applyDeletionsTomb b.2 s.tombstones)).isSome = true ↔
        isTombIn (hd ++ b.2) i := by
    intro i
    rw [Option.isSome_iff_exists]
    constructor
    · intro ⟨k, hk⟩
      exact ⟨k, (htombiff i k).mp hk⟩
    · intro ⟨k, hk⟩
      exact ⟨k, (htombiff i k).mpr hk⟩
  have hm0 : PMem hi [] hd (hd ++ b.2) s.pairs := by
    intro k i v hlk
    exact Or.inl (hR.pair_mem k i v hlk)
  have hdom0 : PDom hi [] (hd ++ b.2) s.pairs := by
    intro k i' v' hmem hnt
    rw [List.append_nil] at hmem
    have hnt0 : ¬isTombIn hd i' := fun ⟨k'', hk''⟩ =>
      hnt ⟨k'', List.mem_append.mpr (Or.inl hk'')⟩
    rcases hR.pair_dom k i' v' hmem hnt0 with hsw | hp
    · exact Or.inl (Swallowed_mono
        (fun x hx => List.mem_append.mpr (Or.inl hx))
        (fun x hx => List.mem_append.mpr (Or.inl hx)) hsw)
    · exact Or.inr hp
  obtain ⟨hs2, hm2, hdom2⟩ :=
    phase2_inv hi hd (hd ++ b.2) (applyDeletionsTomb b.2 s.tombstones)
      htombsome b.1 [] s.pairs s.size hR.sorted_p hm0 hdom0
  rw [List.nil_append] at hm2 hdom2
  refine ⟨?_, ?_, ?_, ?_, ?_⟩
  · -- tomb_iff
    intro i k
    show alGet i (applyDeletionsTomb b.2 s.tombstones) = some k ↔ _
    exact htombiff i k
  · -- pair_mem
    intro k i v hlk
    obtain ⟨hlk2, hnin⟩ :=
      applyDeletionsPairs_lookup_some b.2 _ _ hs2 k i v hlk
    rcases hm2 k i v hlk2 with ⟨hmemhi, hntold⟩ | ⟨hmemb, hnt'⟩
    · refine ⟨List.mem_append.mpr (Or.inl hmemhi), ?_⟩
      intro ⟨k'', hk''⟩
      rcases List.mem_append.mp hk'' with hk'' | hk''
      · exact hntold ⟨k'', hk''⟩
      · have hkk : k = k'' :=
          hc3 (k, i, v) (hsubI _ hmemhi) (i, k'') (hbD _ hk'') rfl
        exact hnin (hkk ▸ hk'')
    · exact ⟨List.mem_append.mpr (Or.inr hmemb), hnt'⟩
  · -- pair_dom
    intro k i' v' hmem hnt
    have hgp : (procBatch s b true 0 0).1.pairs
        = (applyDeletionsPairs b.2
            (applyInsertions (applyDeletionsTomb b.2 s.tombstones) b.1
              s.pairs s.size).1
            (applyInsertions (applyDeletionsTomb b.2 s.tombstones) b.1
              s.pairs s.size).2.1).1 := rfl
    rcases hdom2 k i' v' hmem hnt with hsw | ⟨i0, v0, hlk2, hle⟩
    · exact Or.inl hsw
    · rcases applyDeletionsPairs_lookup_mono b.2 _
        ((applyInsertions (applyDeletionsTomb b.2 s.tombstones) b.1
          s.pairs s.size).2.1) k hs2 with hsame | hnone
      · refine Or.inr ⟨i0, v0, ?_, hle⟩
        rw [hgp, hsame]
        exact hlk2
      · have hrm := applyDeletionsPairs_removed b.2 _ _ hs2 k i0 v0 hlk2 hnone
        have htomb0 : isTombIn (hd ++ b.2) i0 :=
          ⟨k, List.mem_append.mpr (Or.inr hrm)⟩
        have hmem0 : (k, i0, v0) ∈ hi ++ b.1 := by
          rcases hm2 k i0 v0 hlk2 with ⟨hm', _⟩ | ⟨hm', _⟩
          · exact List.mem_append.mpr (Or.inl hm')
          · exact List.mem_append.mpr (Or.inr hm')
        have hlt : i' < i0 := by
          rcases lt_or_eq_of_le hle with h' | h'
          · exact h'
          · exact absurd (h' ▸ htomb0) hnt
        exact Or.inl ⟨i0, v0, hmem0, htomb0, hlt⟩
  · exact applyDeletionsPairs_sorted _ _ _ hs2
  · show alSorted (applyDeletionsTomb b.2 s.tombstones)
    exact applyDeletionsTomb_sorted _ _ hR.sorted_t

theorem allIns_cons (b : Batch V) (bs : List (Batch V)) :
    allIns (b :: bs) = b.1 ++ allIns bs := rfl

theorem allDels_cons (b : Batch V) (bs : List (Batch V)) :
    allDels (b :: bs) = b.2 ++ allDels bs := rfl

/-- Processing any sequence of batches from a reachable state yields a
reachable state. -/
theorem Reach_procBatches {insS : List (Ins V)} {delS : List Del}
    (hc2 : ∀ a ∈ delS, ∀ b ∈ delS, a.1 = b.1 → a.2 = b.2)
    (hc3 : ∀ a ∈ insS, ∀ b ∈ delS, a.2.1 = b.1 → a.1 = b.2) :
    ∀ (bs : List (Batch V)) (s : MapState V) (hi : List (Ins V))
      (hd : List Del),
    Reach hi hd s →
    (∀ x ∈ hi, x ∈ insS) → (∀ x ∈ hd, x ∈ delS) →
    (∀ x ∈ allIns bs, x ∈ insS) → (∀ x ∈ allDels bs, x ∈ delS) →
    Reach (hi ++ allIns bs) (hd ++ allDels bs) (procBatches s bs) := by
  intro bs
  induction bs with
  | nil =>
    intro s hi hd hR _ _ _ _
    simpa [allIns, allDels, procBatches] using hR
  | cons b rest ih =>
    intro s hi hd hR hsubI hsubD hbsI hbsD
    have hbI : ∀ x ∈ b.1, x ∈ insS := fun x hx =>
      hbsI x (by rw [allIns_cons]; exact List.mem_append.mpr (Or.inl hx))
    have hbD : ∀ x ∈ b.2, x ∈ delS := fun x hx =>
      hbsD x (by rw [allDels_cons]; exact List.mem_append.mpr (Or.inl hx))
    have hrestI : ∀ x ∈ allIns rest, x ∈ insS := fun x hx =>
      hbsI x (by rw [allIns_cons]; exact List.mem_append.mpr (Or.inr hx))
    have hrestD : ∀ x ∈ allDels rest, x ∈ delS := fun x hx =>
      hbsD x (by rw [allDels_cons]; exact List.mem_append.mpr (Or.inr hx))
    have hR' := Reach_procBatch hc2 hc3 hR hsubI hsubD b hbI hbD
    have hrec := ih (procBatch s b true 0 0).1 (hi ++ b.1) (hd ++ b.2) hR'
      (fun x hx => by
        rcases List.mem_append.mp hx with hx | hx
        · exact hsubI x hx
        · exact hbI x hx)
      (fun x hx => by
        rcases List.mem_append.mp hx with hx | hx
        · exact hsubD x hx
        · exact hbD x hx)
      hrestI hrestD
    rw [allIns_cons, allDels_cons, ← List.append_assoc, ← List.append_assoc]
    exact hrec

/-- A live pair of a fully-caught-up replica is a delivered, non-tombstoned
insertion that dominates every surviving insertion for its key. -/
theorem Reach_char_some {insS : List (Ins V)} {delS : List Del}
    (hdc : ∀ a ∈ insS, ∀ b ∈ insS, a.1 = b.1 → a.2.1 < b.2.1 →
      isTombIn delS b.2.1 → isTombIn delS a.2.1)
    {hi : List (Ins V)} {hd : List Del} {s : MapState V}
    (hR : Reach hi hd s)
    (hiI : ∀ x, x ∈ hi ↔ x ∈ insS) (hdD : ∀ x, x ∈ hd ↔ x ∈ delS)
    {k i : String} {v : V} (hlk : alGet k s.pairs = some (i, v)) :
    (k, i, v) ∈ insS ∧ ¬isTombIn delS i ∧
    ∀ i' v', (k, i', v') ∈ insS → ¬isTombIn delS i' → i' ≤ i := by
  have htr : ∀ j, isTombIn hd j ↔ isTombIn delS j := fun j =>
    ⟨fun ⟨kk, h⟩ => ⟨kk, (hdD _).mp h⟩, fun ⟨kk, h⟩ => ⟨kk, (hdD _).mpr h⟩⟩
  obtain ⟨hmem, hnt⟩ := hR.pair_mem k i v hlk
  refine ⟨(hiI _).mp hmem, fun hc => hnt ((htr i).mpr hc), ?_⟩
  intro i' v' hm' hnt'
  rcases hR.pair_dom k i' v' ((hiI _).mpr hm')
      (fun hc => hnt' ((htr i').mp hc)) with hsw | ⟨i2, v2, hlk2, hle⟩
  · obtain ⟨j, vj, hjm, hjt, hlt⟩ := hsw
    exact absurd
      (hdc (k, i', v') hm' (k, j, vj) ((hiI _).mp hjm) rfl hlt
        ((htr j).mp hjt)) hnt'
  · rw [hlk] at hlk2
    injection hlk2 with h
    injection h with h1 h2
    subst h1
    exact hle

/-- A key with no live pair, on a fully-caught-up replica, has no surviving
insertion. -/
theorem Reach_char_none {insS : List (Ins V)} {delS : List Del}
    (hdc : ∀ a ∈ insS, ∀ b ∈ insS, a.1 = b.1 → a.2.1 < b.2.1 →
      isTombIn delS b.2.1 → isTombIn delS a.2.1)
    {hi : List (Ins V)} {hd : List Del} {s : MapState V}
    (hR : Reach hi hd s)
    (hiI : ∀ x, x ∈ hi ↔ x ∈ insS) (hdD : ∀ x, x ∈ hd ↔ x ∈ delS)
    {k : String} (hlk : alGet k s.pairs = none) :
    ∀ i' v', (k, i', v') ∈ insS → ¬isTombIn delS i' → False := by
  have htr : ∀ j, isTombIn hd j ↔ isTombIn delS j := fun j =>
    ⟨fun ⟨kk, h⟩ => ⟨kk, (hdD _).mp h⟩, fun ⟨kk, h⟩ => ⟨kk, (hdD _).mpr h⟩⟩
  intro i' v' hm' hnt'
  rcases hR.pair_dom k i' v' ((hiI _).mpr hm')
      (fun hc => hnt' ((htr i').mp hc)) with hsw | ⟨i2, v2, hlk2, _⟩
  · obtain ⟨j, vj, hjm, hjt, hlt⟩ := hsw
    exact absurd
      (hdc (k, i', v') hm' (k, j, vj) ((hiI _).mp hjm) rfl hlt
        ((htr j).mp hjt)) hnt'
  · rw [hlk] at hlk2
    cases hlk2

/-- **C2** (amended) — Convergence: two fresh replicas that each process, in
any order and with any batching and repetition, batch sequences covering the
same set of operations end with equal live pair tables and equal tombstone
tables, provided the operations are coherent (ids determine their operation
and a deletion's key matches its insertion's key — spec invariant 3) and
deletions are per-key downward closed (whenever an insertion id for a key is
tombstoned, every smaller insertion id for that key is tombstoned too — the
shape produced by `set`/`delete`, which tombstone every superseded id).
Without downward closure the delivery order matters: see
`c2_counterexample`. -/
theorem c2_convergence (insS : List (Ins V)) (delS : List Del)
    (hc1 : ∀ a ∈ insS, ∀ b ∈ insS, a.2.1 = b.2.1 → a = b)
    (hc2 : ∀ a ∈ delS, ∀ b ∈ delS, a.1 = b.1 → a.2 = b.2)
    (hc3 : ∀ a ∈ insS, ∀ b ∈ delS, a.2.1 = b.1 → a.1 = b.2)
    (hdc : ∀ a ∈ insS, ∀ b ∈ insS, a.1 = b.1 → a.2.1 < b.2.1 →
      isTombIn delS b.2.1 → isTombIn delS a.2.1)
    (bsA bsB : List (Batch V))
    (hAI : ∀ x, x ∈ allIns bsA ↔ x ∈ insS)
    (hAD : ∀ x, x ∈ allDels bsA ↔ x ∈ delS)
    (hBI : ∀ x, x ∈ allIns bsB ↔ x ∈ insS)
    (hBD : ∀ x, x ∈ allDels bsB ↔ x ∈ delS) :
    (procBatches (MapState.empty (V := V)) bsA).pairs
      = (procBatches MapState.empty bsB).pairs ∧
    (procBatches (MapState.empty (V := V)) bsA).tombstones
      = (procBatches MapState.empty bsB).tombstones := by
  have hRA := Reach_procBatches hc2 hc3 bsA MapState.empty [] []
    Reach_empty (fun x hx => by cases hx) (fun x hx => by cases hx)
    (fun x hx => (hAI x).mp hx) (fun x hx => (hAD x).mp hx)
  have hRB := Reach_procBatches hc2 hc3 bsB MapState.empty [] []
    Reach_empty (fun x hx => by cases hx) (fun x hx => by cases hx)
    (fun x hx => (hBI x).mp hx) (fun x hx => (hBD x).mp hx)
  rw [List.nil_append, List.nil_append] at hRA hRB
  have hpw : ∀ k, alGet k (procBatches (MapState.empty (V := V)) bsA).pairs
      = alGet k (procBatches MapState.empty bsB).pairs := by
    intro k
    cases hA : alGet k (procBatches (MapState.empty (V := V)) bsA).pairs with
    | some p =>
      obtain ⟨i, v⟩ := p
      obtain ⟨hmem, hnt, hmax⟩ := Reach_char_some hdc hRA hAI hAD hA
      cases hB : alGet k (procBatches (MapState.empty (V := V)) bsB).pairs with
      | none => exact (Reach_char_none hdc hRB hBI hBD hB i v hmem hnt).elim
      | some p2 =>
        obtain ⟨i2, v2⟩ := p2
        obtain ⟨hmem2, hnt2, hmax2⟩ := Reach_char_some hdc hRB hBI hBD hB
        have hieq : i = i2 :=
          le_antisymm (hmax2 i v hmem hnt) (hmax i2 v2 hmem2 hnt2)
        subst hieq
        have hveq := hc1 (k, i, v) hmem (k, i, v2) hmem2 rfl
        injection hveq with h1 h2
        injection h2 with h3 h4
        rw [h4]
    | none =>
      cases hB : alGet k (procBatches (MapState.empty (V := V)) bsB).pairs with
      | none => rfl
      | some p2 =>
        obtain ⟨i2, v2⟩ := p2
        obtain ⟨hmem2, hnt2, _⟩ := Reach_char_some hdc hRB hBI hBD hB
        exact (Reach_char_none hdc hRA hAI hAD hA i2 v2 hmem2 hnt2).elim
  have htw : ∀ i,
      alGet i (procBatches (MapState.empty (V := V)) bsA).tombstones
        = alGet i (procBatches MapState.empty bsB).tombstones := by
    intro i
    cases hA : alGet i (procBatches (MapState.empty (V := V)) bsA).tombstones
      with
    | some k =>
      have hmem := (hAD _).mp ((hRA.tomb_iff i k).mp hA)
      rw [(hRB.tomb_iff i k).mpr ((hBD _).mpr hmem)]
    | none =>
      cases hB : alGet i
        (procBatches (MapState.empty (V := V)) bsB).tombstones with
      | none => rfl
      | some k =>
        have hmem := (hBD _).mp ((hRB.tomb_iff i k).mp hB)
        rw [(hRA.tomb_iff i k).mpr ((hAD _).mpr hmem)] at hA
        cases hA
  exact ⟨alExt hRA.sorted_p hRB.sorted_p hpw,
    alExt hRA.sorted_t hRB.sorted_t htw⟩

/-- Witness for `c2_convergence`: the pair of a set-then-delete history
delivered as one batch versus deletion-first single-operation batches. -/
theorem c2_convergence_witness :
    (procBatches (MapState.empty (V := Nat))
        [([("k", "b", 5)], [("b", "k")])]).pairs
      = (procBatches (MapState.empty (V := Nat))
        [([], [("b", "k")]), ([("k", "b", 5)], [])]).pairs :=
  (c2_convergence [("k", "b", 5)] [("b", "k")]
    (by
      intro a ha b hb he
      rw [List.mem_singleton.mp ha, List.mem_singleton.mp hb])
    (by
      intro a ha b hb he
      rw [List.mem_singleton.mp ha, List.mem_singleton.mp hb])
    (by
      intro a ha b hb he
      rw [List.mem_singleton.mp ha, List.mem_singleton.mp hb])
    (by
      intro a ha b hb he hlt ht
      rw [List.mem_singleton.mp ha, List.mem_singleton.mp hb] at hlt
      exact absurd hlt (lt_irrefl _))
    [([("k", "b", 5)], [("b", "k")])]
    [([], [("b", "k")]), ([("k", "b", 5)], [])]
    (fun x => Iff.rfl) (fun x => Iff.rfl)
    (fun x => Iff.rfl) (fun x => Iff.rfl)).1

/-- **C2** (counterexample to the claim as stated) — the multiset
`{ins(k,(a,1)), ins(k,(b,2)), del(b,k)}` delivered in two different orders
to two fresh replicas leaves different live pair tables: the replica that
processed the insertions before the deletion ends empty, the replica that
processed the deletion first ends with `(k ↦ (a, 1))` (the smaller
insertion id is not tombstoned, so it is re-installed after its key was
emptied). -/
theorem c2_counterexample :
    List.Perm
      (allIns [([("k", "a", (1 : Nat))], []), ([("k", "b", 2)], []),
        ([], [("b", "k")])])
      (allIns [([], [("b", "k")]), ([("k", "b", 2)], []),
        ([("k", "a", (1 : Nat))], [])]) ∧
    List.Perm
      (allDels [([("k", "a", (1 : Nat))], []), ([("k", "b", 2)], []),
        ([], [("b", "k")])])
      (allDels [([], [("b", "k")]), ([("k", "b", 2)], []),
        ([("k", "a", (1 : Nat))], [])]) ∧
    (procBatches (MapState.empty (V := Nat))
        [([("k", "a", 1)], []), ([("k", "b", 2)], []),
          ([], [("b", "k")])]).pairs
      ≠ (procBatches (MapState.empty (V := Nat))
        [([], [("b", "k")]), ([("k", "b", 2)], []),
          ([("k", "a", 1)], [])]).pairs := by decide
